import Mathlib

/-!
Verification development for the nanostore repository: a document store with
dimension-derived human-readable identifiers, a hierarchical parent dimension,
and a Python ctypes wrapper around the compiled core library.

Part A models the Python wrapper layer (file nanostore/nanostore.py) directly
from its source: buffer retry logic, the ListOptions JSON serialization, and
the Store object lifecycle around the _handle attribute.

Part B models the store core (ID allocation and resolution, add, update,
delete) from the specification, since the compiled core is not part of the
Python sources.
-/

namespace NanoVerify

/-! ### Part A: the Python wrapper layer, translated from nanostore.py -/

/-- Python-level exceptions the wrapper can raise: the single library
exception class NanoStoreError (it carries only a message), and the built-in
AttributeError that accessing a deleted attribute raises. -/
inductive PyErr
  | attributeError
  | nanoStoreError (msg : String)
  deriving DecidableEq, Repr

/-- Default buffer size constant from nanostore.py. -/
def DEFAULT_BUFFER_SIZE : Nat := 4096

/-- Larger buffer for list operations, from nanostore.py. -/
def LIST_BUFFER_SIZE : Nat := 65536

/-- Model of a loaded C library as seen by the wrapper: each entry point
takes its string arguments plus a buffer size, and returns the pair of the
int return value (bytes written, negative when the response did not fit) and
the bytes it wrote into the buffer.  The isErrorDict field models the
json.loads step of _call_and_parse: it returns the message when the parsed
payload is a dict with an error key, and none otherwise. -/
structure PyLib where
  addFn : String → String → String → Nat → Int × String
  listFn : String → String → Nat → Int × String
  updateFn : String → String → String → Nat → Int × String
  deleteFn : String → String → Int → Nat → Int × String
  resolveFn : String → String → Nat → Int × String
  closeFn : String → Nat → Int × String
  isErrorDict : String → Option String

/-- Check of the parsed payload after a successful C call, from
_call_and_parse: a dict holding an error key raises NanoStoreError. -/
def checkParsed (isErrorDict : String → Option String) (data : String) :
    Except PyErr String :=
  match isErrorDict data with
  | some msg => .error (.nanoStoreError msg)
  | none => .ok data

/-- Translation of Store._call_and_parse: call the C function with a buffer
of the given size; on a negative return value retry once with a buffer four
times as large; if that is negative too, raise NanoStoreError.  On a
non-negative return, parse the written bytes. -/
def callAndParse (f : Nat → Int × String) (isErrorDict : String → Option String)
    (bufferSize : Nat) : Except PyErr String :=
  let r := f bufferSize
  if r.1 < 0 then
    let largerSize := bufferSize * 4
    let r2 := f largerSize
    if r2.1 < 0 then .error (.nanoStoreError "Response too large for buffer")
    else checkParsed isErrorDict r2.2
  else checkParsed isErrorDict r.2

/-- State of the Python Store object: the _handle attribute, or none after
close has deleted it. -/
structure PyStore where
  handle : Option String
  deriving DecidableEq, Repr

/-- Translation of Store.add: reads self._handle (AttributeError when the
attribute was deleted by close), then calls nanostore_add through
_call_and_parse. -/
def PyStore.addM (lib : PyLib) (s : PyStore) (title dimensionsJson : String) :
    Except PyErr String :=
  match s.handle with
  | none => .error .attributeError
  | some h => callAndParse (lib.addFn h title dimensionsJson) lib.isErrorDict DEFAULT_BUFFER_SIZE

/-- Translation of Store.list: reads self._handle, then calls nanostore_list
with the larger list buffer. -/
def PyStore.listM (lib : PyLib) (s : PyStore) (filtersJson : String) :
    Except PyErr String :=
  match s.handle with
  | none => .error .attributeError
  | some h => callAndParse (lib.listFn h filtersJson) lib.isErrorDict LIST_BUFFER_SIZE

/-- Translation of Store.update: reads self._handle, then calls
nanostore_update. -/
def PyStore.updateM (lib : PyLib) (s : PyStore) (id updatesJson : String) :
    Except PyErr String :=
  match s.handle with
  | none => .error .attributeError
  | some h => callAndParse (lib.updateFn h id updatesJson) lib.isErrorDict DEFAULT_BUFFER_SIZE

/-- Translation of Store.delete: reads self._handle, encodes the cascade flag
as 1 or 0, then calls nanostore_delete. -/
def PyStore.deleteM (lib : PyLib) (s : PyStore) (id : String) (cascade : Bool) :
    Except PyErr String :=
  match s.handle with
  | none => .error .attributeError
  | some h =>
      callAndParse (lib.deleteFn h id (if cascade then 1 else 0)) lib.isErrorDict
        DEFAULT_BUFFER_SIZE

/-- Translation of Store.resolve_uuid: reads self._handle, then calls
nanostore_resolve_uuid. -/
def PyStore.resolveM (lib : PyLib) (s : PyStore) (userFacingId : String) :
    Except PyErr String :=
  match s.handle with
  | none => .error .attributeError
  | some h => callAndParse (lib.resolveFn h userFacingId) lib.isErrorDict DEFAULT_BUFFER_SIZE

/-- Translation of Store.close: if the _handle attribute is still present,
call nanostore_close and delete the attribute; otherwise do nothing.  The
returned store is the state of the Python object afterwards. -/
def PyStore.closeM (lib : PyLib) (s : PyStore) : Except PyErr PyStore :=
  match s.handle with
  | none => .ok s
  | some h =>
      match callAndParse (lib.closeFn h) lib.isErrorDict DEFAULT_BUFFER_SIZE with
      | .error e => .error e
      | .ok _ => .ok { handle := none }

/-- Python dict assignment d[k] = v on an insertion-ordered association
list: replace the value in place when the key exists, else append. -/
def pyDictSet (l : List (String × String)) (k v : String) : List (String × String) :=
  if l.any (fun kv => kv.1 == k) then
    l.map (fun kv => if kv.1 == k then (k, v) else kv)
  else l ++ [(k, v)]

/-- Serialization of a string as json.dumps renders it (no escaping is
needed for the inputs considered here). -/
def jsonStr (s : String) : String := "\"" ++ s ++ "\""

/-- Serialization of an insertion-ordered string dict as json.dumps renders
it with default separators. -/
def jsonObj (l : List (String × String)) : String :=
  "\x7b" ++ String.intercalate ", " (l.map (fun kv => jsonStr kv.1 ++ ": " ++ jsonStr kv.2)) ++ "\x7d"

/-- State of the Python ListOptions dataclass (values modelled as strings). -/
structure PyListOptions where
  filters : Option (List (String × String))
  filter_by_search : Option String

/-- Translation of ListOptions.to_json: start from an empty dict, merge the
filters mapping at the top level when it is truthy, store the search string
under the key search when it is truthy, and serialize; an empty result dict
serializes to the empty string, not to an empty JSON object. -/
def PyListOptions.to_json (o : PyListOptions) : String :=
  let result : List (String × String) :=
    match o.filters with
    | some fs => if fs.isEmpty then [] else fs
    | none => []
  let result :=
    match o.filter_by_search with
    | some srch => if srch.isEmpty then result else pyDictSet result "search" srch
    | none => result
  if result.isEmpty then "" else jsonObj result

/-! ### Part B: the store core, modelled from the specification

The compiled core library (ID allocator/resolver, repository, facade) is not
part of the Python sources, so the definitions below are modelled from the
specification text, with the data shapes mirroring the DimensionConfig and
Config dataclasses of nanostore.py. -/

/-- Dimension kind, mirroring the DimensionType IntEnum of nanostore.py. -/
inductive DimensionType
  | enumerated
  | hierarchical
  deriving DecidableEq, Repr

/-- Dimension description, mirroring the DimensionConfig dataclass of
nanostore.py: enumerated dimensions carry values, prefixes and an optional
default value; hierarchical dimensions carry the ref field under which a
document stores its parent UUID. -/
structure DimensionConfig where
  name : String
  type : DimensionType
  values : List String := []
  prefixes : List (String × String) := []
  ref_field : Option String := none
  default_value : Option String := none
  deriving DecidableEq, Repr

/-- Store configuration: the ordered sequence of dimensions, mirroring the
Config dataclass of nanostore.py. -/
structure Config where
  dimensions : List DimensionConfig
  deriving DecidableEq, Repr

/-- Modelled from the spec: a stored document, with its immutable UUID, its
title, and the mapping from dimension name (or hierarchical ref field) to
string value.  The user-facing ID is never stored; it is derived on demand. -/
structure Doc where
  uuid : String
  title : String
  dims : List (String × String)
  deriving DecidableEq, Repr

/-- Modelled from the spec: the store state behind the facade.  Documents are
kept in creation order; nextId feeds the UUID generator. -/
structure CoreStore where
  config : Config
  docs : List Doc
  nextId : Nat
  deriving DecidableEq, Repr

/-- Modelled from the spec: error taxonomy of the core (section 7). -/
inductive Err
  | validation
  | notFound
  | ambiguous
  | conflict
  deriving DecidableEq, Repr

/-- Modelled from the spec: UUID generation; UUIDs are globally unique and
never reused, here realized as an injective function of a counter. -/
def genUuid (n : Nat) : String := String.mk (List.replicate (n + 1) 'u')

/-- Decimal digit character for a value below ten. -/
def digitChar (d : Nat) : Char := Char.ofNat (48 + d)

/-- Decimal rendering of a positive natural number, by structural recursion
on a fuel argument so that it evaluates by kernel reduction. -/
def natStrAux : Nat → Nat → List Char
  | 0, _ => []
  | _ + 1, 0 => []
  | fuel + 1, n + 1 => natStrAux fuel ((n + 1) / 10) ++ [digitChar ((n + 1) % 10)]

/-- Decimal rendering of a natural number as used in user-facing IDs. -/
def natStr (n : Nat) : String :=
  if n = 0 then "0" else String.mk (natStrAux (n + 1) n)

/-- Ordered list of the enumerated dimensions of a configuration, in
configuration order (prefix concatenation order, spec section 4.2). -/
def Config.enumDims (c : Config) : List DimensionConfig :=
  c.dimensions.filter (fun dim => dim.type == DimensionType.enumerated)

/-- The at most one hierarchical dimension of a configuration (spec
section 3 restricts a store to one such dimension). -/
def Config.hierDim (c : Config) : Option DimensionConfig :=
  c.dimensions.find? (fun dim => dim.type == DimensionType.hierarchical)

/-- Modelled from the spec: effective value of a document for an enumerated
dimension - the stored value, or the dimension default when the document
omits the dimension (spec section 3). -/
def effValue (d : Doc) (dim : DimensionConfig) : Option String :=
  match d.dims.lookup dim.name with
  | some v => some v
  | none => dim.default_value

/-- Modelled from the spec: the prefix token an enumerated dimension
contributes for a document: nothing when the effective value is absent or
equals the default value (default suppression takes precedence, spec
section 4.2 edge cases), else the configured token if any. -/
def dimToken (d : Doc) (dim : DimensionConfig) : String :=
  match effValue d dim with
  | none => ""
  | some v => if dim.default_value = some v then "" else (dim.prefixes.lookup v).getD ""

/-- Concatenation of a list of strings, by structural recursion. -/
def strJoin : List String → String
  | [] => ""
  | s :: rest => s ++ strJoin rest

/-- Modelled from the spec: prefix string of a document - concatenation of
the tokens of the enumerated dimensions in configuration order (spec
section 4.2). -/
def docPre (c : Config) (d : Doc) : String :=
  strJoin ((c.enumDims).map (dimToken d))

/-- Modelled from the spec: parent UUID of a document under the hierarchical
dimension, read from the dimension ref field; none means root level. -/
def parentRef (c : Config) (d : Doc) : Option String :=
  match c.hierDim with
  | none => none
  | some hd =>
      match hd.ref_field with
      | none => none
      | some rf => d.dims.lookup rf

/-- Lookup of a document by UUID in the store. -/
def findByUuid (s : CoreStore) (u : String) : Option Doc :=
  s.docs.find? (fun d => d.uuid == u)

/-- Modelled from the spec: the sibling scope for a parent and prefix - all
documents sharing that parent under the hierarchical dimension and the same
prefix string, in creation order (spec sections 4.2 and 8: sequence numbering
restarts per parent plus prefix scope). -/
def scopeDocs (s : CoreStore) (par : Option String) (pre : String) : List Doc :=
  s.docs.filter (fun d => parentRef s.config d == par && docPre s.config d == pre)

/-- Modelled from the spec: 1-based sequence number of a document within its
sibling scope, by creation order (spec section 4.2). -/
def seqNum (s : CoreStore) (d : Doc) : Nat :=
  (scopeDocs s (parentRef s.config d) (docPre s.config d)).indexOf d + 1

/-- Modelled from the spec: the one ID segment of a document - its prefix
followed by its sequence number in decimal (spec section 4.2). -/
def segString (s : CoreStore) (d : Doc) : String :=
  docPre s.config d ++ natStr (seqNum s d)

/-- Modelled from the spec: the ancestor walk - UUIDs encountered following
parent references upward from the given position, fuel-bounded; returns none
if a reference dangles or the fuel runs out before a root is reached. -/
def chainX (s : CoreStore) : Nat → Option String → Option (List String)
  | _, none => some []
  | 0, some _ => none
  | fuel + 1, some u =>
      match findByUuid s u with
      | none => none
      | some d => (chainX s fuel (parentRef s.config d)).map (fun l => u :: l)

/-- Modelled from the spec: segments of the user-facing ID of a document -
the parent chain is rendered first, then the document's own segment
(spec section 4.2, hierarchy rendering); fuel-bounded recursion through
parents, computed fresh from the current store state. -/
def renderSegsAux (s : CoreStore) : Nat → Doc → List String
  | 0, d => [segString s d]
  | fuel + 1, d =>
      match parentRef s.config d with
      | none => [segString s d]
      | some p =>
          match findByUuid s p with
          | none => [segString s d]
          | some pd => renderSegsAux s fuel pd ++ [segString s d]

/-- Segments of the user-facing ID of a document, with sufficient fuel. -/
def renderSegs (s : CoreStore) (d : Doc) : List String :=
  renderSegsAux s s.docs.length d

/-- Joining of character-level groups with the dot separator. -/
def joinCh : List (List Char) → List Char
  | [] => []
  | [g] => g
  | g :: gs => g ++ '.' :: joinCh gs

/-- Splitting of a character list on the dot separator. -/
def splitCh : List Char → List (List Char)
  | [] => [[]]
  | c :: cs =>
      if c = '.' then [] :: splitCh cs
      else
        match splitCh cs with
        | [] => [[c]]
        | g :: gs => (c :: g) :: gs

/-- Joining of ID segments with the dot separator. -/
def joinDots (segs : List String) : String :=
  String.mk (joinCh (segs.map String.data))

/-- Splitting of a user-facing ID on the dot separator. -/
def splitDots (str : String) : List String :=
  (splitCh str.data).map String.mk

/-- Modelled from the spec: the user-facing ID of a document - its segments
joined with the dot separator (spec section 4.2). -/
def render (s : CoreStore) (d : Doc) : String :=
  joinDots (renderSegs s d)

/-- Modelled from the spec: resolution of one ID segment at a given parent -
recompute every candidate document's own scope and sequence assignment and
match the provided segment against it; NotFoundError when no document
matches, AmbiguousError when more than one does (spec section 4.2). -/
def resolveSeg (s : CoreStore) (par : Option String) (seg : String) : Except Err Doc :=
  match s.docs.filter (fun d => parentRef s.config d == par && segString s d == seg) with
  | [] => .error .notFound
  | [d] => .ok d
  | _ => .error .ambiguous

/-- Modelled from the spec: resolution of a segment list, level by level,
descending through the hierarchy (spec section 4.2). -/
def resolveSegs (s : CoreStore) (par : Option String) : List String → Except Err Doc
  | [] => .error .notFound
  | [seg] => resolveSeg s par seg
  | seg :: rest =>
      match resolveSeg s par seg with
      | .error e => .error e
      | .ok d => resolveSegs s (some d.uuid) rest

/-- Modelled from the spec: resolution of a user-facing ID string back to a
UUID - split on the dot separator and resolve each segment in turn
(spec section 4.2); this is the core behind Store.resolve_uuid. -/
def resolve_uuid (s : CoreStore) (userFacingId : String) : Except Err String :=
  (resolveSegs s none (splitDots userFacingId)).map Doc.uuid

/-- Modelled from the spec: locator acceptance - mutating operations accept
either a UUID or a currently valid user-facing ID (spec section 4.4). -/
def locate (s : CoreStore) (loc : String) : Except Err Doc :=
  match findByUuid s loc with
  | some d => .ok d
  | none => resolveSegs s none (splitDots loc)

/-- Test that a dimension named k with allowed value v exists. -/
def validEnumValue (c : Config) (k v : String) : Bool :=
  c.dimensions.any (fun dim =>
    dim.name == k && dim.type == DimensionType.enumerated && dim.values.contains v)

/-- Test that k is the ref field of the hierarchical dimension. -/
def isRefField (c : Config) (k : String) : Bool :=
  match c.hierDim with
  | none => false
  | some hd => hd.ref_field == some k

/-- Modelled from the spec: validation of the dimension map supplied to add -
every key must name an enumerated dimension with an allowed value, or be the
hierarchical ref field with an existing parent UUID (spec section 4.4: add
fails with ValidationError on unknown dimension or value or a dangling
parent reference). -/
def validDims (s : CoreStore) (dims : List (String × String)) : Bool :=
  dims.all (fun kv =>
    if isRefField s.config kv.1 then (findByUuid s kv.2).isSome
    else validEnumValue s.config kv.1 kv.2)

/-- Modelled from the spec: the add operation - validate the dimension map,
assign a fresh UUID, and append the document in creation order (spec
section 4.4).  A cycle cannot arise here because the new UUID is fresh. -/
def CoreStore.add (s : CoreStore) (title : String) (dims : List (String × String)) :
    Except Err (String × CoreStore) :=
  if validDims s dims then
    let u := genUuid s.nextId
    .ok (u, { s with docs := s.docs ++ [{ uuid := u, title := title, dims := dims }],
                     nextId := s.nextId + 1 })
  else .error .validation

/-- Python-style dict assignment on a document dimension map. -/
def setKey (l : List (String × String)) (k v : String) : List (String × String) :=
  if l.any (fun kv => kv.1 == k) then
    l.map (fun kv => if kv.1 == k then (k, v) else kv)
  else l ++ [(k, v)]

/-- Application of a list of dimension changes to a dimension map. -/
def applyDims (old : List (String × String)) : List (String × String) → List (String × String)
  | [] => old
  | (k, v) :: rest => applyDims (setKey old k v) rest

/-- Partial update request: optional new title and dimension changes,
mirroring the UpdateRequest dataclass of nanostore.py. -/
structure UpdateReq where
  title : Option String := none
  dims : List (String × String) := []
  deriving DecidableEq, Repr

/-- Application of an update request to a document; the UUID never changes. -/
def applyUpdate (d : Doc) (r : UpdateReq) : Doc :=
  { d with title := r.title.getD d.title, dims := applyDims d.dims r.dims }

/-- Modelled from the spec: validation of one update change - an enumerated
change must use an allowed value; a hierarchical change must point at an
existing document and must not create a cycle, checked by an ancestor walk
from the proposed parent (spec sections 3, 4.4 and 9). -/
def validChange (s : CoreStore) (target : Doc) (k v : String) : Bool :=
  if isRefField s.config k then
    match chainX s s.docs.length (some v) with
    | none => false
    | some l => !(l.contains target.uuid)
  else validEnumValue s.config k v

/-- Modelled from the spec: the update operation - locate the target by
UUID or user-facing ID, validate every change, and replace the document in
place (spec section 4.4). -/
def CoreStore.update (s : CoreStore) (loc : String) (r : UpdateReq) :
    Except Err CoreStore :=
  match locate s loc with
  | .error e => .error e
  | .ok t =>
      if r.dims.all (fun kv => validChange s t kv.1 kv.2) then
        .ok { s with docs := s.docs.map (fun d =>
                if d.uuid = t.uuid then applyUpdate t r else d) }
      else .error .validation

/-- Children of a document under the hierarchical dimension. -/
def childrenOf (s : CoreStore) (u : String) : List Doc :=
  s.docs.filter (fun d => parentRef s.config d == some u)

/-- Modelled from the spec: membership of a document in the subtree rooted
at a given UUID, decided by the ancestor walk from the document (spec
section 9 models cascade and cycle questions by ancestor walks). -/
def inSubtree (s : CoreStore) (root : String) (e : Doc) : Bool :=
  match chainX s s.docs.length (some e.uuid) with
  | none => e.uuid == root
  | some l => l.contains root

/-- Modelled from the spec: the delete operation - locate the target; with
cascade remove the target and every transitive child; without cascade fail
with ConflictError when children exist, else remove the single document
(spec sections 3 and 4.4). -/
def CoreStore.delete (s : CoreStore) (loc : String) (cascade : Bool) :
    Except Err CoreStore :=
  match locate s loc with
  | .error e => .error e
  | .ok d =>
      if cascade then
        .ok { s with docs := s.docs.filter (fun e => !(inSubtree s d.uuid e)) }
      else
        if (childrenOf s d.uuid).isEmpty then
          .ok { s with docs := s.docs.filter (fun e => !(e.uuid == d.uuid)) }
        else .error .conflict

/-- The empty store over a configuration. -/
def initStore (c : Config) : CoreStore := { config := c, docs := [], nextId := 0 }

/-- Modelled from the spec: store states reachable from the empty store by
successful add, update and delete operations. -/
inductive Reachable (c : Config) : CoreStore → Prop
  | init : Reachable c (initStore c)
  | add {s : CoreStore} {t : String} {dims : List (String × String)}
      {u : String} {s' : CoreStore} :
      Reachable c s → CoreStore.add s t dims = .ok (u, s') → Reachable c s'
  | update {s : CoreStore} {loc : String} {r : UpdateReq} {s' : CoreStore} :
      Reachable c s → CoreStore.update s loc r = .ok s' → Reachable c s'
  | delete {s : CoreStore} {loc : String} {casc : Bool} {s' : CoreStore} :
      Reachable c s → CoreStore.delete s loc casc = .ok s' → Reachable c s'

/-- Parent edge relation on UUIDs: a step from a stored document's UUID up
to its parent's UUID. -/
inductive UpStep (s : CoreStore) : String → String → Prop
  | mk {d : Doc} {p : String} : d ∈ s.docs → parentRef s.config d = some p →
      UpStep s d.uuid p

/-- Store invariant: distinct UUIDs all coming from the generator below the
counter, parent references resolving to stored documents, and acyclicity of
the parent relation witnessed by a rank function. -/
structure Inv (s : CoreStore) : Prop where
  nodup : (s.docs.map Doc.uuid).Nodup
  fresh : ∀ d ∈ s.docs, ∃ k < s.nextId, d.uuid = genUuid k
  parentsExist : ∀ d ∈ s.docs, ∀ p, parentRef s.config d = some p →
    ∃ e ∈ s.docs, e.uuid = p
  acyclic : ∃ rank : String → Nat, ∀ d ∈ s.docs, ∀ p,
    parentRef s.config d = some p → rank p < rank d.uuid

/-- Configurations whose prefix tokens contain neither a decimal digit nor
the dot separator; every configuration shipped in the repository (tokens c,
p, a) satisfies it. -/
def GoodConfig (c : Config) : Prop :=
  ∀ dim ∈ c.dimensions, ∀ pr ∈ dim.prefixes, ∀ ch ∈ pr.2.data,
    ¬ ch.isDigit ∧ ch ≠ '.'

/-- Configuration with the prefixes of the named dimension removed, used to
state that a dimension contributes nothing to an ID. -/
def erasePre (c : Config) (dname : String) : Config :=
  ⟨c.dimensions.map (fun dd =>
    if dd.name = dname then { dd with prefixes := [] } else dd)⟩

/-- Sequential folding of add operations, for building concrete stores. -/
def addAll (s : CoreStore) : List (String × List (String × String)) → Except Err CoreStore
  | [] => .ok s
  | (t, dims) :: rest =>
      match CoreStore.add s t dims with
      | .ok (_, s') => addAll s' rest
      | .error e => .error e

/-! ### Concrete instances used by counterexamples and witnesses -/

/-- The todo configuration from nanostore.py (todo_config). -/
def cfgT : Config := ⟨[
  { name := "status", type := .enumerated, values := ["pending", "completed"],
    prefixes := [("completed", "c")], default_value := some "pending" },
  { name := "parent", type := .hierarchical, ref_field := some "parent_uuid" }]⟩

/-- Add requests building a three-document store: two roots and a child. -/
def itemsT : List (String × List (String × String)) :=
  [("A", []), ("B", [("status", "completed")]), ("C", [("parent_uuid", "u")])]

/-- The store the itemsT additions produce. -/
def sT : CoreStore :=
  { config := cfgT,
    docs := [{ uuid := "u", title := "A", dims := [] },
             { uuid := "uu", title := "B", dims := [("status", "completed")] },
             { uuid := "uuu", title := "C", dims := [("parent_uuid", "u")] }],
    nextId := 3 }

/-- The child document of sT. -/
def docC : Doc := { uuid := "uuu", title := "C", dims := [("parent_uuid", "u")] }

/-- The first root document of sT. -/
def docA : Doc := { uuid := "u", title := "A", dims := [] }

/-- Add requests building a store of three root documents. -/
def itemsD : List (String × List (String × String)) :=
  [("A", []), ("B", []), ("C", [])]

/-- The store the itemsD additions produce. -/
def sD : CoreStore :=
  { config := cfgT,
    docs := [{ uuid := "u", title := "A", dims := [] },
             { uuid := "uu", title := "B", dims := [] },
             { uuid := "uuu", title := "C", dims := [] }],
    nextId := 3 }

/-- The store left after deleting the middle root document of sD. -/
def sD2 : CoreStore :=
  { config := cfgT,
    docs := [{ uuid := "u", title := "A", dims := [] },
             { uuid := "uuu", title := "C", dims := [] }],
    nextId := 3 }

/-- The status dimension of the todo configuration. -/
def statusDim : DimensionConfig :=
  { name := "status", type := .enumerated, values := ["pending", "completed"],
    prefixes := [("completed", "c")], default_value := some "pending" }

/-- The middle root document of sD. -/
def docB2 : Doc := { uuid := "uu", title := "B", dims := [] }

/-- The last root document of sD. -/
def docC2 : Doc := { uuid := "uuu", title := "C", dims := [] }

/-- A configuration whose prefix tokens contain digits: the token of value x
is the digit 1 and the token of value y is 11. -/
def cexConfig : Config := ⟨[
  { name := "status", type := .enumerated, values := ["x", "y"],
    prefixes := [("x", "1"), ("y", "11")] }]⟩

/-- Add requests producing eleven documents of value x followed by one of
value y. -/
def cexItems : List (String × List (String × String)) :=
  (List.replicate 11 ("t", [("status", "x")])) ++ [("t", [("status", "y")])]

/-- The store the cexItems additions produce: the eleventh x document and
the single y document both render as the ID 111. -/
def cexStore : CoreStore :=
  { config := cexConfig,
    docs := (List.range 11).map (fun k =>
        { uuid := genUuid k, title := "t", dims := [("status", "x")] }) ++
      [{ uuid := genUuid 11, title := "t", dims := [("status", "y")] }],
    nextId := 12 }

/-- The eleventh x document of cexStore. -/
def cexDoc : Doc := { uuid := genUuid 10, title := "t", dims := [("status", "x")] }

/-- A concrete library model whose calls all succeed. -/
def trivLib : PyLib where
  addFn := fun _ _ _ _ => (2, "ok")
  listFn := fun _ _ _ => (2, "[]")
  updateFn := fun _ _ _ _ => (2, "ok")
  deleteFn := fun _ _ _ _ => (2, "ok")
  resolveFn := fun _ _ _ => (2, "ok")
  closeFn := fun _ _ => (2, "ok")
  isErrorDict := fun _ => none

/-- A concrete C function model whose response only fits in buffers of at
least four times the default size. -/
def bigRespFn : Nat → Int × String :=
  fun n => if n < DEFAULT_BUFFER_SIZE * 4 then (-1, "") else (5, "hello")

/-! ### Theorems: wrapper layer -/

/-- Helper: setting an absent key appends it at the end, as Python dict
assignment does. -/
theorem pyDictSet_not_mem (l : List (String × String)) (k v : String)
    (h : ∀ kv ∈ l, kv.1 ≠ k) : pyDictSet l k v = l ++ [(k, v)] := by
  unfold pyDictSet
  rw [if_neg]
  simp only [List.any_eq_true, beq_iff_eq, not_exists, not_and]
  exact fun kv hkv => h kv hkv

/-- C9: Store._call_and_parse with initial buffer size B calls the C
function at B; on a negative return it retries exactly once at size 4B; a
second negative return raises NanoStoreError, and a successful return value
always comes from a call whose reported length was non-negative (never
truncated data). -/
theorem c9_buffer_retry (f : Nat → Int × String) (iE : String → Option String) (B : Nat) :
    ((f B).1 < 0 → (f (B * 4)).1 < 0 →
      callAndParse f iE B = .error (.nanoStoreError "Response too large for buffer")) ∧
    ((f B).1 < 0 → 0 ≤ (f (B * 4)).1 →
      callAndParse f iE B = checkParsed iE (f (B * 4)).2) ∧
    (0 ≤ (f B).1 → callAndParse f iE B = checkParsed iE (f B).2) ∧
    (∀ x, callAndParse f iE B = .ok x →
      (0 ≤ (f B).1 ∧ x = (f B).2) ∨ (0 ≤ (f (B * 4)).1 ∧ x = (f (B * 4)).2)) := by
  refine ⟨fun h1 h2 => ?_, fun h1 h2 => ?_, fun h1 => ?_, fun x hx => ?_⟩
  · simp [callAndParse, h1, h2]
  · simp [callAndParse, h1, not_lt.mpr h2]
  · simp [callAndParse, not_lt.mpr h1]
  · by_cases h1 : (f B).1 < 0
    · by_cases h2 : (f (B * 4)).1 < 0
      · simp [callAndParse, h1, h2] at hx
      · simp only [callAndParse, h1, if_true, h2, if_false] at hx
        cases hie : iE (f (B * 4)).2 <;> simp [checkParsed, hie] at hx
        exact Or.inr ⟨not_lt.mp h2, hx.symm⟩
    · simp only [callAndParse, h1, if_false] at hx
      cases hie : iE (f B).2 <;> simp [checkParsed, hie] at hx
      exact Or.inl ⟨not_lt.mp h1, hx.symm⟩

/-- C9 witness: with a response needing the larger buffer, the call retries
at four times the default size and succeeds with that call's data. -/
theorem c9_witness :
    callAndParse bigRespFn (fun _ => none) DEFAULT_BUFFER_SIZE = .ok "hello" := by
  have h := (c9_buffer_retry bigRespFn (fun _ => none) DEFAULT_BUFFER_SIZE).2.1
    (by decide) (by decide)
  rw [h]; rfl

/-- C7: Store.close is idempotent - once close has succeeded, the handle
attribute is gone and a further close performs no library call and raises no
error, leaving the same closed state. -/
theorem c7_close_idempotent (lib : PyLib) (s s1 : PyStore)
    (h : PyStore.closeM lib s = .ok s1) :
    s1.handle = none ∧ PyStore.closeM lib s1 = .ok s1 := by
  obtain ⟨h0⟩ := s
  cases h0 with
  | none =>
    simp only [PyStore.closeM] at h
    cases h
    exact ⟨rfl, rfl⟩
  | some hh =>
    simp only [PyStore.closeM] at h
    cases hc : callAndParse (lib.closeFn hh) lib.isErrorDict DEFAULT_BUFFER_SIZE with
    | error e => rw [hc] at h; cases h
    | ok x =>
      rw [hc] at h
      cases h
      exact ⟨rfl, rfl⟩

/-- C7 witness: closing a concrete open store and then closing again. -/
theorem c7_witness :
    PyStore.closeM trivLib { handle := none } = .ok { handle := none } :=
  (c7_close_idempotent trivLib { handle := some "h" } { handle := none } rfl).2

/-- C6 counterexample: after a successful close, a subsequent add fails by
raising the Python built-in AttributeError (the _handle attribute was
deleted), not a dedicated ClosedError of the library's error taxonomy. -/
theorem c6_counterexample :
    PyStore.closeM trivLib { handle := some "h" } = .ok { handle := none } ∧
    PyStore.addM trivLib { handle := none } "t" "" = .error .attributeError :=
  ⟨rfl, rfl⟩

/-- C6 as amended: after close every subsequent wrapper operation fails, but
with AttributeError - the wrapper has no dedicated ClosedError and its only
library exception is the single NanoStoreError. -/
theorem c6_amended_closed_attribute_error (lib : PyLib) (a b c d e f g : String)
    (casc : Bool) :
    PyStore.addM lib { handle := none } a b = .error .attributeError ∧
    PyStore.listM lib { handle := none } c = .error .attributeError ∧
    PyStore.updateM lib { handle := none } d e = .error .attributeError ∧
    PyStore.deleteM lib { handle := none } f casc = .error .attributeError ∧
    PyStore.resolveM lib { handle := none } g = .error .attributeError :=
  ⟨rfl, rfl, rfl, rfl, rfl⟩

/-- C10: ListOptions.to_json merges the filters at the top level and stores
the search string under the key search, so a filter literally named search
is overwritten by (indistinguishable from) the free-text search parameter;
with neither filters nor search the serialization is the empty string. -/
theorem c10_to_json_shape :
    (∀ v srch, srch ≠ "" →
      PyListOptions.to_json ⟨some [("search", v)], some srch⟩ =
        PyListOptions.to_json ⟨none, some srch⟩) ∧
    PyListOptions.to_json ⟨none, none⟩ = "" ∧
    (∀ fs, fs ≠ [] → PyListOptions.to_json ⟨some fs, none⟩ = jsonObj fs) ∧
    (∀ fs srch, fs ≠ [] → srch ≠ "" → (∀ kv ∈ fs, kv.1 ≠ "search") →
      PyListOptions.to_json ⟨some fs, some srch⟩ = jsonObj (fs ++ [("search", srch)])) := by
  have hne : ∀ srch : String, srch ≠ "" → srch.isEmpty = false := by
    intro srch h
    rw [Bool.eq_false_iff, Ne, String.isEmpty_iff]
    exact h
  refine ⟨fun v srch hs => ?_, rfl, fun fs hfs => ?_, fun fs srch hfs hs hnk => ?_⟩
  · simp [PyListOptions.to_json, hne srch hs, pyDictSet]
  · have : fs.isEmpty = false := by simpa [List.isEmpty_iff] using hfs
    simp [PyListOptions.to_json, this]
  · have h1 : fs.isEmpty = false := by simpa [List.isEmpty_iff] using hfs
    simp only [PyListOptions.to_json, h1, Bool.false_eq_true, if_false, hne srch hs,
      pyDictSet_not_mem fs "search" srch hnk]
    rw [if_neg]
    simp

/-- C10 witness: a filter entry named search is overwritten by the search
parameter, and the empty options serialize to the empty string. -/
theorem c10_witness :
    PyListOptions.to_json ⟨some [("search", "x")], some "y"⟩ =
      PyListOptions.to_json ⟨none, some "y"⟩ ∧
    PyListOptions.to_json ⟨none, none⟩ = "" := by
  have h := c10_to_json_shape
  exact ⟨h.1 "x" "y" (by decide), h.2.1⟩

/-! ### Theorems: core helper lemmas about lookup and the ancestor walk -/

/-- Helper: a successful UUID lookup returns a stored document with that
UUID. -/
theorem findByUuid_mem {s : CoreStore} {u : String} {d : Doc}
    (h : findByUuid s u = some d) : d ∈ s.docs ∧ d.uuid = u := by
  refine ⟨List.mem_of_find?_eq_some h, ?_⟩
  have hp := List.find?_some h
  simpa using hp

/-- Helper: distinct stored UUIDs make the document determined by its UUID. -/
theorem uuid_inj {s : CoreStore} (hn : (s.docs.map Doc.uuid).Nodup)
    {a b : Doc} (ha : a ∈ s.docs) (hb : b ∈ s.docs) (h : a.uuid = b.uuid) : a = b :=
  List.inj_on_of_nodup_map hn ha hb h

/-- Helper: lookup by UUID succeeds on any stored document's UUID. -/
theorem findByUuid_eq_some {s : CoreStore} (hn : (s.docs.map Doc.uuid).Nodup)
    {d : Doc} (hd : d ∈ s.docs) : findByUuid s d.uuid = some d := by
  cases hf : findByUuid s d.uuid with
  | none =>
    exfalso
    rw [findByUuid, List.find?_eq_none] at hf
    exact hf d hd (by simp)
  | some e =>
    obtain ⟨he, heu⟩ := findByUuid_mem hf
    rw [uuid_inj hn he hd heu]

/-- Helper: lookup with no result means no stored document has the UUID. -/
theorem findByUuid_eq_none {s : CoreStore} {u : String}
    (h : findByUuid s u = none) : ∀ d ∈ s.docs, d.uuid ≠ u := by
  intro d hd
  rw [findByUuid, List.find?_eq_none] at h
  have := h d hd
  simpa using this

/-- Helper: the ancestor walk from a root position is empty at any fuel. -/
theorem chainX_none (s : CoreStore) (n : Nat) : chainX s n none = some [] := by
  cases n <;> rfl

/-- Helper: shape of a successful ancestor walk from a UUID - it starts with
that UUID, the lookup succeeded, and the rest is the walk from the parent. -/
theorem chainX_some_elim {s : CoreStore} {n : Nat} {u : String} {l : List String}
    (h : chainX s n (some u) = some l) :
    ∃ m d l2, n = m + 1 ∧ findByUuid s u = some d ∧ l = u :: l2 ∧
      chainX s m (parentRef s.config d) = some l2 := by
  cases n with
  | zero => simp [chainX] at h
  | succ m =>
    rw [chainX] at h
    cases hf : findByUuid s u with
    | none => rw [hf] at h; simp at h
    | some d =>
      rw [hf] at h
      obtain ⟨l2, hl2, hcons⟩ := Option.map_eq_some'.mp h
      exact ⟨m, d, l2, rfl, rfl, hcons.symm, hl2⟩

/-- Helper: a successful ancestor walk is reproduced by any fuel at least
the length of its result. -/
theorem chainX_min {s : CoreStore} {l : List String} :
    ∀ {n : Nat} {o : Option String}, chainX s n o = some l →
      ∀ {m : Nat}, l.length ≤ m → chainX s m o = some l := by
  induction l with
  | nil =>
    intro n o h m _
    cases o with
    | none => exact chainX_none s m
    | some u => obtain ⟨_, _, _, _, _, hcons, _⟩ := chainX_some_elim h; cases hcons
  | cons a l2 ih =>
    intro n o h m hm
    cases o with
    | none => rw [chainX_none] at h; cases h
    | some u =>
      obtain ⟨n2, d, l3, _, hf, hcons, hrest⟩ := chainX_some_elim h
      injection hcons with ha hl
      subst ha hl
      cases m with
      | zero => simp at hm
      | succ m2 =>
        have hm2 : l2.length ≤ m2 := by simpa using hm
        rw [chainX, hf]
        simp only [ih hrest hm2, Option.map_some']

/-- Helper: the ancestor walk result is independent of the fuel whenever it
succeeds. -/
theorem chainX_det {s : CoreStore} {l : List String} :
    ∀ {n : Nat} {o : Option String}, chainX s n o = some l →
      ∀ {m : Nat} {l2 : List String}, chainX s m o = some l2 → l = l2 := by
  induction l with
  | nil =>
    intro n o h m l2 h2
    cases o with
    | none => rw [chainX_none] at h2; cases h2; rfl
    | some u => obtain ⟨_, _, _, _, _, hcons, _⟩ := chainX_some_elim h; cases hcons
  | cons a l3 ih =>
    intro n o h m l2 h2
    cases o with
    | none => rw [chainX_none] at h; cases h
    | some u =>
      obtain ⟨n3, d, l4, _, hf, hcons, hrest⟩ := chainX_some_elim h
      injection hcons with ha hl
      subst ha hl
      obtain ⟨m3, d2, l5, _, hf2, hcons2, hrest2⟩ := chainX_some_elim h2
      rw [hf] at hf2
      injection hf2 with hd
      subst hd
      cases hcons2
      rw [ih hrest hrest2]

/-- Helper: every UUID listed by a successful ancestor walk belongs to a
stored document. -/
theorem chainX_mem_docs {s : CoreStore} {l : List String} :
    ∀ {n : Nat} {o : Option String}, chainX s n o = some l →
      ∀ x ∈ l, ∃ e ∈ s.docs, e.uuid = x := by
  induction l with
  | nil => intro n o _ x hx; cases hx
  | cons a l2 ih =>
    intro n o h x hx
    cases o with
    | none => rw [chainX_none] at h; cases h
    | some u =>
      obtain ⟨n2, d, l3, _, hf, hcons, hrest⟩ := chainX_some_elim h
      injection hcons with ha hl
      subst ha hl
      obtain ⟨hdm, hdu⟩ := findByUuid_mem hf
      cases hx with
      | head => exact ⟨d, hdm, hdu⟩
      | tail _ hx2 => exact ih hrest x hx2

/-- Helper: elimination form of a parent edge. -/
theorem upStep_elim {s : CoreStore} {c p : String} (h : UpStep s c p) :
    ∃ d ∈ s.docs, d.uuid = c ∧ parentRef s.config d = some p := by
  cases h with
  | mk hd hp => exact ⟨_, hd, rfl, hp⟩

/-- Helper: a parent edge from a given UUID is unique when UUIDs are
distinct. -/
theorem upStep_unique {s : CoreStore} (hn : (s.docs.map Doc.uuid).Nodup)
    {c p q : String} (h1 : UpStep s c p) (h2 : UpStep s c q) : p = q := by
  obtain ⟨d1, hd1, hu1, hp1⟩ := upStep_elim h1
  obtain ⟨d2, hd2, hu2, hp2⟩ := upStep_elim h2
  obtain rfl : d1 = d2 := uuid_inj hn hd1 hd2 (hu1.trans hu2.symm)
  rw [hp1] at hp2
  injection hp2

/-- Helper: every UUID listed by the ancestor walk from a UUID is an
ancestor or the UUID itself, along parent edges. -/
theorem chainX_sound {s : CoreStore} :
    ∀ {n : Nat} {u : String} {l : List String}, chainX s n (some u) = some l →
      ∀ x ∈ l, Relation.ReflTransGen (UpStep s) u x := by
  intro n
  induction n with
  | zero => intro u l h; simp [chainX] at h
  | succ m ih =>
    intro u l h x hx
    rw [chainX] at h
    cases hf : findByUuid s u with
    | none => rw [hf] at h; cases h
    | some d =>
      rw [hf] at h
      obtain ⟨l2, hl2, hcons⟩ := Option.map_eq_some'.mp h
      subst hcons
      cases hx with
      | head => exact Relation.ReflTransGen.refl
      | tail _ hx2 =>
        obtain ⟨hdm, hdu⟩ := findByUuid_mem hf
        cases hpar : parentRef s.config d with
        | none => rw [hpar, chainX_none] at hl2; cases hl2; cases hx2
        | some p =>
          rw [hpar] at hl2
          have hstep : UpStep s u p := by
            have h0 : UpStep s d.uuid p := UpStep.mk hdm hpar
            rwa [hdu] at h0
          exact Relation.ReflTransGen.head hstep (ih hl2 x hx2)

/-- Helper: a successful ancestor walk lists every ancestor: any UUID
reachable upward from the walk's start appears in the walk. -/
theorem chainX_complete {s : CoreStore} (hn : (s.docs.map Doc.uuid).Nodup)
    {u x : String} (hr : Relation.ReflTransGen (UpStep s) u x) :
    ∀ {n : Nat} {l : List String}, chainX s n (some u) = some l → x ∈ l := by
  induction hr using Relation.ReflTransGen.head_induction_on with
  | refl =>
    intro n l h
    obtain ⟨_, _, _, _, _, hcons, _⟩ := chainX_some_elim h
    subst hcons
    exact List.mem_cons_self _ _
  | head hstep _ ih =>
    intro n l h
    obtain ⟨n2, d, l3, _, hf, hcons, hrest⟩ := chainX_some_elim h
    subst hcons
    obtain ⟨hdm, hdu⟩ := findByUuid_mem hf
    obtain ⟨d2, hd2, hu2, hp2⟩ := upStep_elim hstep
    obtain rfl : d2 = d := uuid_inj hn hd2 hdm (hu2.trans hdu.symm)
    rw [hp2] at hrest
    exact List.mem_cons_of_mem _ (ih hrest)

/-- Helper: strictly ascending parent edges decrease any rank function
witnessing acyclicity. -/
theorem transGen_rank {s : CoreStore} {rank : String → Nat}
    (hrank : ∀ d ∈ s.docs, ∀ p, parentRef s.config d = some p → rank p < rank d.uuid)
    {a b : String} (h : Relation.TransGen (UpStep s) a b) : rank b < rank a := by
  induction h with
  | single hs => obtain ⟨hd, hp⟩ := hs; exact hrank _ hd _ hp
  | tail _ hs ih =>
    obtain ⟨hd, hp⟩ := hs
    exact lt_trans (hrank _ hd _ hp) ih

/-- Helper: under the invariant no UUID is a strict ancestor of itself. -/
theorem no_self_ancestor {s : CoreStore} (hs : Inv s) {a : String}
    (h : Relation.TransGen (UpStep s) a a) : False := by
  obtain ⟨rank, hrank⟩ := hs.acyclic
  exact lt_irrefl _ (transGen_rank hrank h)

/-- Helper: with a rank function and existing parents, the ancestor walk
from a stored UUID succeeds with enough fuel, listing documents of rank at
most the start's, in strictly decreasing rank order. -/
theorem chain_exists_some {s : CoreStore} {rank : String → Nat}
    (hrank : ∀ d ∈ s.docs, ∀ p, parentRef s.config d = some p → rank p < rank d.uuid)
    (hpars : ∀ d ∈ s.docs, ∀ p, parentRef s.config d = some p → ∃ e ∈ s.docs, e.uuid = p) :
    ∀ (r : Nat) (u : String), (∃ e ∈ s.docs, e.uuid = u) → rank u ≤ r →
      ∃ l, chainX s (r + 1) (some u) = some l ∧
        (∀ x ∈ l, (∃ e ∈ s.docs, e.uuid = x) ∧ rank x ≤ rank u) ∧
        l.Pairwise (fun a b => rank b < rank a) := by
  intro r
  induction r with
  | zero =>
    intro u hu hr
    obtain ⟨e, hem, heu⟩ := hu
    obtain ⟨e2, hf, he2m, he2u⟩ :
        ∃ e2, findByUuid s u = some e2 ∧ e2 ∈ s.docs ∧ e2.uuid = u := by
      cases hfx : findByUuid s u with
      | none => exact absurd heu (findByUuid_eq_none hfx e hem)
      | some e2 =>
        obtain ⟨hm2, hu2⟩ := findByUuid_mem hfx
        exact ⟨e2, rfl, hm2, hu2⟩
    cases hpar : parentRef s.config e2 with
    | some p =>
      exfalso
      have := hrank e2 he2m p hpar
      rw [he2u] at this
      omega
    | none =>
      refine ⟨[u], ?_, ?_, ?_⟩
      · simp only [chainX, hf, hpar, chainX_none, Option.map_some']
      · intro x hx
        rw [List.mem_singleton] at hx
        subst hx
        exact ⟨⟨e2, he2m, he2u⟩, le_refl _⟩
      · simp
  | succ r2 ih =>
    intro u hu hr
    obtain ⟨e, hem, heu⟩ := hu
    obtain ⟨e2, hf, he2m, he2u⟩ :
        ∃ e2, findByUuid s u = some e2 ∧ e2 ∈ s.docs ∧ e2.uuid = u := by
      cases hfx : findByUuid s u with
      | none => exact absurd heu (findByUuid_eq_none hfx e hem)
      | some e2 =>
        obtain ⟨hm2, hu2⟩ := findByUuid_mem hfx
        exact ⟨e2, rfl, hm2, hu2⟩
    cases hpar : parentRef s.config e2 with
    | none =>
      refine ⟨[u], ?_, ?_, ?_⟩
      · simp only [chainX, hf, hpar, chainX_none, Option.map_some']
      · intro x hx
        rw [List.mem_singleton] at hx
        subst hx
        exact ⟨⟨e2, he2m, he2u⟩, le_refl _⟩
      · simp
    | some p =>
      have hpu : rank p < rank u := by
        have := hrank e2 he2m p hpar
        rwa [he2u] at this
      have hpex : ∃ e3 ∈ s.docs, e3.uuid = p := hpars e2 he2m p hpar
      obtain ⟨l2, hl2, hl2mem, hl2pw⟩ := ih p hpex (by omega)
      refine ⟨u :: l2, ?_, ?_, ?_⟩
      · simp only [chainX, hf, hpar, hl2, Option.map_some']
      · intro x hx
        cases hx with
        | head => exact ⟨⟨e2, he2m, he2u⟩, le_refl _⟩
        | tail _ hx2 =>
          obtain ⟨hxe, hxr⟩ := hl2mem x hx2
          exact ⟨hxe, le_of_lt (lt_of_le_of_lt hxr hpu)⟩
      · refine List.Pairwise.cons ?_ hl2pw
        intro x hx
        exact lt_of_le_of_lt (hl2mem x hx).2 hpu

/-- Helper: under the invariant the ancestor walk from any stored UUID
succeeds at fuel the number of documents, listing pairwise distinct stored
UUIDs. -/
theorem inv_chain_exists {s : CoreStore} (hs : Inv s) {u : String}
    (hu : ∃ e ∈ s.docs, e.uuid = u) :
    ∃ l, chainX s s.docs.length (some u) = some l ∧ l.Nodup ∧
      ∀ x ∈ l, ∃ e ∈ s.docs, e.uuid = x := by
  obtain ⟨rank, hrank⟩ := hs.acyclic
  obtain ⟨l, hl, hmem, hpw⟩ :=
    chain_exists_some hrank hs.parentsExist (rank u) u hu (le_refl _)
  have hnd : l.Nodup := hpw.imp (fun hlt heq => by subst heq; exact lt_irrefl _ hlt)
  have hsub : l ⊆ s.docs.map Doc.uuid := by
    intro x hx
    obtain ⟨⟨e, hem, heu⟩, _⟩ := hmem x hx
    exact heu ▸ List.mem_map_of_mem _ hem
  have hlen : l.length ≤ s.docs.length := by
    have h2 := (hnd.subperm hsub).length_le
    simpa using h2
  exact ⟨l, chainX_min hl hlen, hnd, fun x hx => (hmem x hx).1⟩

/-- Helper: under the invariant the ancestor walk from any stored document's
parent position succeeds at fuel the number of documents. -/
theorem inv_chain_par {s : CoreStore} (hs : Inv s) {d : Doc} (hd : d ∈ s.docs) :
    ∃ l, chainX s s.docs.length (parentRef s.config d) = some l := by
  cases hpar : parentRef s.config d with
  | none => exact ⟨[], chainX_none s _⟩
  | some p =>
    obtain ⟨l, hl, _, _⟩ := inv_chain_exists hs (hs.parentsExist d hd p hpar)
    exact ⟨l, hl⟩

/-! ### Theorems: decimal rendering and the dot separator -/

/-- Helper: digit characters are decimal digits. -/
theorem digitChar_isDigit {d : Nat} (h : d < 10) : (digitChar d).isDigit = true := by
  interval_cases d <;> decide

/-- Helper: digit characters are injective below ten. -/
theorem digitChar_inj {d e : Nat} (hd : d < 10) (he : e < 10)
    (h : digitChar d = digitChar e) : d = e := by
  interval_cases d <;> interval_cases e <;> revert h <;> decide

/-- Helper: the fuelled decimal renderer agrees with the digit expansion. -/
theorem natStrAux_eq_digits : ∀ (fuel n : Nat), n ≤ fuel →
    natStrAux fuel n = ((Nat.digits 10 n).map digitChar).reverse := by
  intro fuel
  induction fuel with
  | zero =>
    intro n hn
    interval_cases n
    simp [natStrAux]
  | succ f ih =>
    intro n hn
    cases n with
    | zero => simp [natStrAux]
    | succ m =>
      rw [natStrAux, Nat.digits_def' (by norm_num : (1:ℕ) < 10) (Nat.succ_pos m)]
      have hdiv : (m + 1) / 10 ≤ f := by
        have := Nat.div_lt_self (Nat.succ_pos m) (by norm_num : (1:ℕ) < 10)
        omega
      rw [ih ((m + 1) / 10) hdiv]
      simp

/-- Helper: decimal rendering of a positive number, in digit-expansion
form. -/
theorem natStr_pos_data {n : Nat} (h : 0 < n) :
    (natStr n).data = ((Nat.digits 10 n).map digitChar).reverse := by
  rw [natStr, if_neg (Nat.pos_iff_ne_zero.mp h)]
  exact natStrAux_eq_digits (n + 1) n (Nat.le_succ n)

/-- Helper: every character of a rendered number is a decimal digit. -/
theorem natStr_chars_digit (n : Nat) : ∀ ch ∈ (natStr n).data, ch.isDigit = true := by
  intro ch hch
  cases Nat.eq_zero_or_pos n with
  | inl h0 =>
    subst h0
    simp only [natStr, if_pos rfl] at hch
    cases hch with
    | head => decide
    | tail _ h2 => cases h2
  | inr hpos =>
    rw [natStr_pos_data hpos, List.mem_reverse] at hch
    obtain ⟨d, hd, rfl⟩ := List.mem_map.mp hch
    exact digitChar_isDigit (Nat.digits_lt_base (by norm_num) hd)

/-- Helper: rendered positive numbers are nonempty. -/
theorem natStr_ne_nil {n : Nat} (h : 0 < n) : (natStr n).data ≠ [] := by
  rw [natStr_pos_data h]
  simp only [ne_eq, List.reverse_eq_nil_iff, List.map_eq_nil_iff]
  exact Nat.digits_ne_nil_iff_ne_zero.mpr (Nat.pos_iff_ne_zero.mp h)

/-- Helper: mapping the digit character function is injective on digit
lists. -/
theorem map_digitChar_inj : ∀ {l1 l2 : List Nat}, (∀ x ∈ l1, x < 10) →
    (∀ x ∈ l2, x < 10) → l1.map digitChar = l2.map digitChar → l1 = l2 := by
  intro l1
  induction l1 with
  | nil =>
    intro l2 _ _ h
    cases l2 with
    | nil => rfl
    | cons b m => simp at h
  | cons a l ih =>
    intro l2 h1 h2 h
    cases l2 with
    | nil => simp at h
    | cons b m =>
      simp only [List.map_cons, List.cons.injEq] at h
      have ha : a = b := digitChar_inj (h1 a (by simp)) (h2 b (by simp)) h.1
      have hm : l = m := ih (fun x hx => h1 x (by simp [hx]))
        (fun x hx => h2 x (by simp [hx])) h.2
      rw [ha, hm]

/-- Helper: decimal rendering is injective on positive numbers. -/
theorem natStr_inj {i j : Nat} (hi : 0 < i) (hj : 0 < j)
    (h : natStr i = natStr j) : i = j := by
  have hd : (natStr i).data = (natStr j).data := by rw [h]
  rw [natStr_pos_data hi, natStr_pos_data hj] at hd
  have hrev := List.reverse_injective hd
  have hdig : Nat.digits 10 i = Nat.digits 10 j :=
    map_digitChar_inj (fun x hx => Nat.digits_lt_base (by norm_num) hx)
      (fun x hx => Nat.digits_lt_base (by norm_num) hx) hrev
  have := congrArg (Nat.ofDigits 10) hdig
  rwa [Nat.ofDigits_digits, Nat.ofDigits_digits] at this

/-- Helper: character lists without dots split to themselves. -/
theorem splitCh_no_dot : ∀ (g : List Char), (∀ c ∈ g, c ≠ '.') →
    splitCh g = [g] := by
  intro g
  induction g with
  | nil => intro; rfl
  | cons c cs ih =>
    intro h
    rw [splitCh, if_neg (h c (by simp)), ih (fun x hx => h x (by simp [hx]))]

/-- Helper: splitting distributes over a dot-joined head group. -/
theorem splitCh_append_dot : ∀ (g rest : List Char), (∀ c ∈ g, c ≠ '.') →
    splitCh (g ++ '.' :: rest) = g :: splitCh rest := by
  intro g
  induction g with
  | nil => intro rest _; simp [splitCh]
  | cons c cs ih =>
    intro rest h
    rw [List.cons_append, splitCh, if_neg (h c (by simp)),
      ih rest (fun x hx => h x (by simp [hx]))]

/-- Helper: splitting on dots undoes joining with dots, for dot-free
groups. -/
theorem splitCh_joinCh : ∀ (gs : List (List Char)) (g : List Char),
    (∀ c ∈ g, c ≠ '.') → (∀ h ∈ gs, ∀ c ∈ h, c ≠ '.') →
    splitCh (joinCh (g :: gs)) = g :: gs := by
  intro gs
  induction gs with
  | nil => intro g hg _; rw [joinCh, splitCh_no_dot g hg]
  | cons h2 t ih =>
    intro g hg hgs
    have hj : joinCh (g :: h2 :: t) = g ++ '.' :: joinCh (h2 :: t) := rfl
    rw [hj, splitCh_append_dot g _ hg,
      ih h2 (hgs h2 (by simp)) (fun x hx => hgs x (by simp [hx]))]

/-- Helper: a string is determined by its character data. -/
theorem string_mk_data (s : String) : String.mk s.data = s := by
  cases s
  rfl

/-- Helper: splitting a dot-joined nonempty segment list recovers it when no
segment contains a dot. -/
theorem splitDots_joinDots (segs : List String) (hne : segs ≠ [])
    (hdot : ∀ seg ∈ segs, ∀ c ∈ seg.data, c ≠ '.') :
    splitDots (joinDots segs) = segs := by
  cases segs with
  | nil => exact absurd rfl hne
  | cons a t =>
    rw [splitDots, joinDots]
    have hd : (String.mk (joinCh ((a :: t).map String.data))).data =
        joinCh ((a :: t).map String.data) := rfl
    rw [hd, List.map_cons, splitCh_joinCh (t.map String.data) a.data
      (hdot a (by simp))
      (by
        intro h hh c hc
        obtain ⟨seg, hseg, rfl⟩ := List.mem_map.mp hh
        exact hdot seg (by simp [hseg]) c hc)]
    rw [List.map_cons, string_mk_data, List.map_map]
    congr 1
    conv_rhs => rw [show t = t.map id from (List.map_id t).symm]
    exact List.map_congr_left (fun x _ => string_mk_data x)

/-! ### Theorems: prefix characters and segment injectivity -/

/-- Helper: a successful association lookup means the pair is present. -/
theorem lookup_mem : ∀ {l : List (String × String)} {a b : String},
    l.lookup a = some b → (a, b) ∈ l := by
  intro l
  induction l with
  | nil => intro a b h; cases h
  | cons kv t ih =>
    intro a b h
    obtain ⟨k, v⟩ := kv
    rw [List.lookup] at h
    cases hk : (a == k) with
    | true =>
      rw [hk] at h
      injection h with hv
      obtain rfl : a = k := by simpa using hk
      subst hv
      exact List.mem_cons_self _ _
    | false =>
      rw [hk] at h
      exact List.mem_cons_of_mem _ (ih h)

/-- Helper: the character data of a string concatenation. -/
theorem strJoin_data : ∀ l : List String, (strJoin l).data = (l.map String.data).flatten := by
  intro l
  induction l with
  | nil => rfl
  | cons a t ih => rw [strJoin, String.data_append, ih]; rfl

/-- Helper: the token a dimension contributes is empty or one of the
configured tokens. -/
theorem dimToken_cases (d : Doc) (dim : DimensionConfig) :
    dimToken d dim = "" ∨ ∃ pr ∈ dim.prefixes, dimToken d dim = pr.2 := by
  cases hv : effValue d dim with
  | none => exact Or.inl (by rw [dimToken, hv])
  | some v =>
    by_cases hd : dim.default_value = some v
    · exact Or.inl (by rw [dimToken, hv]; simp only [if_pos hd])
    · cases hl : dim.prefixes.lookup v with
      | none =>
        refine Or.inl ?_
        rw [dimToken, hv]
        simp only [if_neg hd, hl, Option.getD_none]
      | some tok =>
        refine Or.inr ⟨(v, tok), lookup_mem hl, ?_⟩
        rw [dimToken, hv]
        simp only [if_neg hd, hl, Option.getD_some]

/-- Helper: under a good configuration, prefix strings contain no digit and
no dot. -/
theorem docPre_chars {c : Config} (hg : GoodConfig c) (d : Doc) :
    ∀ ch ∈ (docPre c d).data, ch.isDigit = false ∧ ch ≠ '.' := by
  intro ch hch
  rw [docPre, strJoin_data] at hch
  obtain ⟨piece, hpiece, hchp⟩ := List.mem_flatten.mp hch
  rw [List.map_map] at hpiece
  obtain ⟨dim, hdim, rfl⟩ := List.mem_map.mp hpiece
  have hdim2 : dim ∈ c.dimensions := List.mem_of_mem_filter hdim
  cases dimToken_cases d dim with
  | inl h0 =>
    rw [Function.comp_apply, h0] at hchp
    cases hchp
  | inr h1 =>
    obtain ⟨pr, hpr, htok⟩ := h1
    rw [Function.comp_apply, htok] at hchp
    have := hg dim hdim2 pr hpr ch hchp
    exact ⟨by simpa using this.1, this.2⟩

/-- Helper: sequence numbers are positive. -/
theorem seqNum_pos (s : CoreStore) (d : Doc) : 0 < seqNum s d := Nat.succ_pos _

/-- Helper: under a good configuration no character of an ID segment is a
dot. -/
theorem segString_no_dot {s : CoreStore} (hg : GoodConfig s.config) (d : Doc) :
    ∀ ch ∈ (segString s d).data, ch ≠ '.' := by
  intro ch hch
  rw [segString, String.data_append] at hch
  cases List.mem_append.mp hch with
  | inl h => exact (docPre_chars hg d ch h).2
  | inr h =>
    have hd := natStr_chars_digit _ ch h
    intro heq
    rw [heq] at hd
    cases hd

/-- Helper: scope membership characterization. -/
theorem mem_scopeDocs {s : CoreStore} {par : Option String} {pre : String} {e : Doc} :
    e ∈ scopeDocs s par pre ↔
      e ∈ s.docs ∧ parentRef s.config e = par ∧ docPre s.config e = pre := by
  rw [scopeDocs, List.mem_filter]
  constructor
  · rintro ⟨hm, hp⟩
    rw [Bool.and_eq_true, beq_iff_eq, beq_iff_eq] at hp
    exact ⟨hm, hp.1, hp.2⟩
  · rintro ⟨hm, hp, hq⟩
    refine ⟨hm, ?_⟩
    rw [Bool.and_eq_true, beq_iff_eq, beq_iff_eq]
    exact ⟨hp, hq⟩

/-- Helper: the sequence number of a scope member is its position in that
scope. -/
theorem seqNum_eq_indexOf {s : CoreStore} {par : Option String} {pre : String}
    {e : Doc} (he : e ∈ scopeDocs s par pre) :
    seqNum s e = (scopeDocs s par pre).indexOf e + 1 := by
  obtain ⟨_, hp, hq⟩ := mem_scopeDocs.mp he
  rw [seqNum, hp, hq]

/-- Helper: within one parent, equal segments force equal documents (under
the invariant and a good configuration). -/
theorem segString_inj {s : CoreStore} (hg : GoodConfig s.config)
    {a b : Doc} (ha : a ∈ s.docs) (hb : b ∈ s.docs)
    (hpar : parentRef s.config a = parentRef s.config b)
    (hseg : segString s a = segString s b) : a = b := by
  have hdata : (docPre s.config a).data ++ (natStr (seqNum s a)).data =
      (docPre s.config b).data ++ (natStr (seqNum s b)).data := by
    have h1 := congrArg String.data hseg
    rwa [segString, segString, String.data_append, String.data_append] at h1
  have hpre : docPre s.config a = docPre s.config b := by
    rcases List.append_eq_append_iff.mp hdata with ⟨t, hbt, hat⟩ | ⟨t, hat, hbt⟩
    · cases t with
      | nil => exact String.ext (by simpa using hbt.symm)
      | cons ch t2 =>
        exfalso
        have hchb : ch ∈ (docPre s.config b).data := by rw [hbt]; simp
        have hcha : ch ∈ (natStr (seqNum s a)).data := by rw [hat]; simp
        have h1 := (docPre_chars hg b ch hchb).1
        have h2 := natStr_chars_digit _ ch hcha
        rw [h1] at h2
        cases h2
    · cases t with
      | nil => exact String.ext (by simpa using hat)
      | cons ch t2 =>
        exfalso
        have hcha : ch ∈ (docPre s.config a).data := by rw [hat]; simp
        have hchb : ch ∈ (natStr (seqNum s b)).data := by rw [hbt]; simp
        have h1 := (docPre_chars hg a ch hcha).1
        have h2 := natStr_chars_digit _ ch hchb
        rw [h1] at h2
        cases h2
  have hnum : natStr (seqNum s a) = natStr (seqNum s b) := by
    have h2 : (natStr (seqNum s a)).data = (natStr (seqNum s b)).data := by
      rw [hpre] at hdata
      exact List.append_cancel_left hdata
    exact String.ext h2
  have hseq : seqNum s a = seqNum s b := natStr_inj (seqNum_pos s a) (seqNum_pos s b) hnum
  have hascope : a ∈ scopeDocs s (parentRef s.config a) (docPre s.config a) :=
    mem_scopeDocs.mpr ⟨ha, rfl, rfl⟩
  have hbscope : b ∈ scopeDocs s (parentRef s.config a) (docPre s.config a) :=
    mem_scopeDocs.mpr ⟨hb, hpar.symm, hpre.symm⟩
  have hia := seqNum_eq_indexOf hascope
  have hib : seqNum s b =
      (scopeDocs s (parentRef s.config a) (docPre s.config a)).indexOf b + 1 := by
    rw [seqNum, ← hpar, ← hpre]
  have hidx : (scopeDocs s (parentRef s.config a) (docPre s.config a)).indexOf a =
      (scopeDocs s (parentRef s.config a) (docPre s.config a)).indexOf b := by
    omega
  have hlt := List.indexOf_lt_length.mpr hascope
  have hltb := List.indexOf_lt_length.mpr hbscope
  have h3 : (scopeDocs s (parentRef s.config a) (docPre s.config a))[(scopeDocs s
      (parentRef s.config a) (docPre s.config a)).indexOf a]? = some a := by
    rw [List.getElem?_eq_getElem hlt, List.getElem_indexOf hlt]
  rw [hidx, List.getElem?_eq_getElem hltb, List.getElem_indexOf hltb] at h3
  injection h3 with h4
  exact h4.symm

/-- Helper: a duplicate-free list whose members all equal a given member is
the singleton of it. -/
theorem nodup_all_eq {α : Type} {l : List α} {d : α} (hn : l.Nodup) (hd : d ∈ l)
    (hall : ∀ x ∈ l, x = d) : l = [d] := by
  cases l with
  | nil => cases hd
  | cons a t =>
    obtain rfl : a = d := hall a (List.mem_cons_self _ _)
    cases t with
    | nil => rfl
    | cons b t2 =>
      exfalso
      have hb : b = a := hall b (by simp)
      rw [List.nodup_cons] at hn
      exact hn.1 (by simp [hb.symm])

/-- Helper: resolving a stored document's own segment at its parent yields
exactly that document. -/
theorem resolveSeg_of_mem {s : CoreStore} (hs : Inv s) (hg : GoodConfig s.config)
    {d : Doc} (hd : d ∈ s.docs) :
    resolveSeg s (parentRef s.config d) (segString s d) = .ok d := by
  set par := parentRef s.config d with hpar
  have hmemf : d ∈ s.docs.filter
      (fun e => parentRef s.config e == par && segString s e == segString s d) := by
    rw [List.mem_filter]
    refine ⟨hd, ?_⟩
    rw [Bool.and_eq_true, beq_iff_eq, beq_iff_eq]
    exact ⟨rfl, rfl⟩
  have hflt : s.docs.filter
      (fun e => parentRef s.config e == par && segString s e == segString s d) = [d] := by
    refine nodup_all_eq ((hs.nodup.of_map).filter _) hmemf ?_
    intro x hx
    rw [List.mem_filter, Bool.and_eq_true, beq_iff_eq, beq_iff_eq] at hx
    exact segString_inj hg hx.1 hd (hx.2.1.trans hpar) hx.2.2
  rw [resolveSeg, hflt]

/-! ### Theorems: rendering and resolution -/

/-- Helper: a successful ancestor walk consumes at most its fuel. -/
theorem chainX_length_le {s : CoreStore} :
    ∀ {n : Nat} {o : Option String} {l : List String},
      chainX s n o = some l → l.length ≤ n := by
  intro n
  induction n with
  | zero =>
    intro o l h
    cases o with
    | none => rw [chainX_none] at h; cases h; exact le_refl _
    | some u => simp [chainX] at h
  | succ m ih =>
    intro o l h
    cases o with
    | none => rw [chainX_none] at h; cases h; simp
    | some u =>
      obtain ⟨n2, d, l2, hn, hf, hcons, hrest⟩ := chainX_some_elim h
      obtain rfl : m = n2 := by omega
      subst hcons
      simpa using Nat.succ_le_succ (ih hrest)

/-- Helper: rendered segment lists are never empty. -/
theorem renderSegsAux_ne_nil (s : CoreStore) (m : Nat) (d : Doc) :
    renderSegsAux s m d ≠ [] := by
  cases m with
  | zero => simp [renderSegsAux]
  | succ k =>
    cases hp : parentRef s.config d with
    | none => simp [renderSegsAux, hp]
    | some p =>
      cases hf : findByUuid s p with
      | none => simp [renderSegsAux, hp, hf]
      | some pd => simp [renderSegsAux, hp, hf]

/-- Helper: every rendered segment is the segment of some stored document. -/
theorem renderSegsAux_mem {s : CoreStore} :
    ∀ (m : Nat) (d : Doc), d ∈ s.docs → ∀ x ∈ renderSegsAux s m d,
      ∃ e ∈ s.docs, x = segString s e := by
  intro m
  induction m with
  | zero =>
    intro d hd x hx
    simp only [renderSegsAux, List.mem_singleton] at hx
    exact ⟨d, hd, hx⟩
  | succ k ih =>
    intro d hd x hx
    cases hp : parentRef s.config d with
    | none =>
      simp only [renderSegsAux, hp, List.mem_singleton] at hx
      exact ⟨d, hd, hx⟩
    | some p =>
      cases hf : findByUuid s p with
      | none =>
        simp only [renderSegsAux, hp, hf, List.mem_singleton] at hx
        exact ⟨d, hd, hx⟩
      | some pd =>
        simp only [renderSegsAux, hp, hf, List.mem_append, List.mem_singleton] at hx
        rcases hx with h1 | h2
        · exact ih pd (findByUuid_mem hf).1 x h1
        · exact ⟨d, hd, h2⟩

/-- Helper: the rendered segments do not depend on the fuel, once the fuel
covers the ancestor chain. -/
theorem renderAux_fuel_eq {s : CoreStore} :
    ∀ {l : List String} {d : Doc} {n : Nat},
      chainX s n (parentRef s.config d) = some l →
      ∀ {m1 m2 : Nat}, l.length ≤ m1 → l.length ≤ m2 →
        renderSegsAux s m1 d = renderSegsAux s m2 d := by
  intro l
  induction l with
  | nil =>
    intro d n h m1 m2 _ _
    have hpar : parentRef s.config d = none := by
      cases hp : parentRef s.config d with
      | none => rfl
      | some p =>
        rw [hp] at h
        obtain ⟨_, _, _, _, _, hcons, _⟩ := chainX_some_elim h
        cases hcons
    cases m1 <;> cases m2 <;> simp [renderSegsAux, hpar]
  | cons a l2 ih =>
    intro d n h m1 m2 h1 h2
    cases hp : parentRef s.config d with
    | none => rw [hp, chainX_none] at h; cases h
    | some p =>
      rw [hp] at h
      obtain ⟨n2, pd, l3, hn, hf, hcons, hrest⟩ := chainX_some_elim h
      injection hcons with ha hl
      subst ha
      subst hl
      cases m1 with
      | zero => simp at h1
      | succ k1 =>
        cases m2 with
        | zero => simp at h2
        | succ k2 =>
          simp only [renderSegsAux, hp, hf]
          rw [ih hrest (by simpa using h1) (by simpa using h2)]

/-- Helper: resolution of a segment list with a final segment appended
descends through the front list first. -/
theorem resolveSegs_snoc {s : CoreStore} :
    ∀ (segs : List String) (par : Option String) (seg : String), segs ≠ [] →
      resolveSegs s par (segs ++ [seg]) =
        match resolveSegs s par segs with
        | .ok a => resolveSeg s (some a.uuid) seg
        | .error e => .error e := by
  intro segs
  induction segs with
  | nil => intro par seg h; exact absurd rfl h
  | cons a t ih =>
    intro par seg _
    cases t with
    | nil =>
      have h1 : resolveSegs s par [a] = resolveSeg s par a := rfl
      show (match resolveSeg s par a with
        | Except.error e => Except.error e
        | Except.ok d => resolveSegs s (some d.uuid) [seg]) = _
      rw [h1]
      cases hra : resolveSeg s par a with
      | error e => rfl
      | ok dd => rfl
    | cons b t2 =>
      have h1 : resolveSegs s par (a :: b :: t2) =
          match resolveSeg s par a with
          | Except.error e => Except.error e
          | Except.ok d => resolveSegs s (some d.uuid) (b :: t2) := rfl
      have h2 : resolveSegs s par ((a :: b :: t2) ++ [seg]) =
          match resolveSeg s par a with
          | Except.error e => Except.error e
          | Except.ok d => resolveSegs s (some d.uuid) ((b :: t2) ++ [seg]) := rfl
      rw [h2, h1]
      cases hra : resolveSeg s par a with
      | error e => rfl
      | ok dd =>
        show resolveSegs s (some dd.uuid) (b :: t2 ++ [seg]) =
          match resolveSegs s (some dd.uuid) (b :: t2) with
          | Except.ok a2 => resolveSeg s (some a2.uuid) seg
          | Except.error e => Except.error e
        exact ih (some dd.uuid) seg (by simp)

/-- Helper: under the invariant and a good configuration, resolving the
rendered segment list of a stored document yields that document; by strong
induction on the length of its ancestor chain. -/
theorem resolveSegs_renderSegs {s : CoreStore} (hs : Inv s) (hg : GoodConfig s.config) :
    ∀ (k : Nat) (d : Doc) (l : List String), d ∈ s.docs →
      chainX s s.docs.length (parentRef s.config d) = some l → l.length = k →
      resolveSegs s none (renderSegs s d) = .ok d := by
  intro k
  induction k using Nat.strong_induction_on with
  | _ k ih =>
    intro d l hd hchain hlen
    cases hp : parentRef s.config d with
    | none =>
      have hr : renderSegs s d = [segString s d] := by
        rw [renderSegs]
        cases s.docs.length <;> simp [renderSegsAux, hp]
      rw [hr]
      show resolveSeg s none (segString s d) = .ok d
      have h2 := resolveSeg_of_mem hs hg hd
      rwa [hp] at h2
    | some p =>
      rw [hp] at hchain
      obtain ⟨n2, pd, l3, hn, hf, hcons, hrest⟩ := chainX_some_elim hchain
      subst hcons
      obtain ⟨hpdm, hpdu⟩ := findByUuid_mem hf
      obtain ⟨l4, hl4⟩ := inv_chain_par hs hpdm
      obtain rfl : l3 = l4 := chainX_det hrest hl4
      have hLpos : 0 < s.docs.length :=
        List.length_pos.mpr (by rintro hnil; rw [hnil] at hd; cases hd)
      obtain ⟨L2, hL2⟩ : ∃ L2, s.docs.length = L2 + 1 :=
        ⟨s.docs.length - 1, by omega⟩
      have hlen3 : l3.length ≤ L2 := by
        have h5 := chainX_length_le hchain
        simp only [List.length_cons] at h5
        omega
      have hsplit : renderSegs s d = renderSegsAux s L2 pd ++ [segString s d] := by
        rw [renderSegs, hL2]
        simp only [renderSegsAux, hp, hf]
      have hpdrender : renderSegsAux s L2 pd = renderSegs s pd := by
        rw [renderSegs]
        exact renderAux_fuel_eq hl4 hlen3 (chainX_length_le hl4)
      have hih : resolveSegs s none (renderSegs s pd) = .ok pd := by
        refine ih l3.length ?_ pd l3 hpdm hl4 rfl
        simp only [List.length_cons] at hlen
        omega
      have hne : renderSegs s pd ≠ [] := renderSegsAux_ne_nil s _ pd
      rw [hsplit, hpdrender, resolveSegs_snoc _ none _ hne, hih]
      show resolveSeg s (some pd.uuid) (segString s d) = Except.ok d
      rw [hpdu, ← hp]
      exact resolveSeg_of_mem hs hg hd

/-- Helper: round trip at the level of an invariant-satisfying store. -/
theorem roundtrip_of_inv {s : CoreStore} (hs : Inv s) (hg : GoodConfig s.config)
    {d : Doc} (hd : d ∈ s.docs) : resolve_uuid s (render s d) = .ok d.uuid := by
  have hsplit : splitDots (render s d) = renderSegs s d := by
    refine splitDots_joinDots _ (renderSegsAux_ne_nil s _ d) ?_
    intro seg hseg c hc
    obtain ⟨e, he, rfl⟩ := renderSegsAux_mem _ d hd seg hseg
    exact segString_no_dot hg e c hc
  obtain ⟨l, hchain⟩ := inv_chain_par hs hd
  rw [resolve_uuid, hsplit, resolveSegs_renderSegs hs hg l.length d l hd hchain rfl]
  rfl

/-! ### Theorems: operation support lemmas -/

/-- Helper: finding in a prefix extends to the appended list. -/
theorem find?_append_left {α : Type} {l1 : List α} (l2 : List α) {p : α → Bool} {x : α}
    (h : l1.find? p = some x) : (l1 ++ l2).find? p = some x := by
  induction l1 with
  | nil => cases h
  | cons a t ih =>
    rw [List.cons_append]
    rw [List.find?] at h
    rw [List.find?]
    cases hp : p a with
    | true => rw [hp] at h; exact h
    | false => rw [hp] at h; exact ih h

/-- Helper: association lookup across an append. -/
theorem lookup_append (l1 l2 : List (String × String)) (k : String) :
    (l1 ++ l2).lookup k =
      match l1.lookup k with
      | some v => some v
      | none => l2.lookup k := by
  induction l1 with
  | nil => rfl
  | cons kv t ih =>
    obtain ⟨k1, v1⟩ := kv
    rw [List.cons_append, List.lookup, List.lookup]
    cases hk : (k == k1) with
    | true => rfl
    | false => exact ih

/-- Helper: a falsified existence test gives failing lookup. -/
theorem lookup_eq_none_of_all_ne {l : List (String × String)} {k : String}
    (h : ∀ kv ∈ l, kv.1 ≠ k) : l.lookup k = none := by
  induction l with
  | nil => rfl
  | cons kv t ih =>
    obtain ⟨k1, v1⟩ := kv
    rw [List.lookup]
    have hne : k1 ≠ k := h (k1, v1) (List.mem_cons_self _ _)
    have hk : (k == k1) = false := by
      rw [beq_eq_false_iff_ne]
      exact fun he => hne he.symm
    rw [hk]
    exact ih (fun kv hkv => h kv (List.mem_cons_of_mem _ hkv))

/-- Helper: in-place replacement map, lookup at the replaced key. -/
theorem lookup_mapReplace_self (l : List (String × String)) (k v : String)
    (ha : (l.any fun kv => kv.1 == k) = true) :
    (l.map (fun kv => if kv.1 == k then (k, v) else kv)).lookup k = some v := by
  induction l with
  | nil => simp at ha
  | cons kv t ih =>
    obtain ⟨k1, v1⟩ := kv
    rw [List.map_cons]
    by_cases hk1 : ((k1 == k) = true)
    · rw [if_pos hk1, List.lookup, beq_self_eq_true]
    · rw [if_neg hk1, List.lookup]
      have hk : (k == k1) = false := by
        rw [beq_eq_false_iff_ne]
        intro he
        exact hk1 (by rw [he]; exact beq_self_eq_true _)
      rw [hk]
      refine ih ?_
      rw [List.any_cons] at ha
      simp only [Bool.not_eq_true] at hk1
      simpa [hk1] using ha

/-- Helper: in-place replacement map, lookup at another key. -/
theorem lookup_mapReplace_ne (l : List (String × String)) (k v k2 : String)
    (h : k2 ≠ k) :
    (l.map (fun kv => if kv.1 == k then (k, v) else kv)).lookup k2 = l.lookup k2 := by
  induction l with
  | nil => rfl
  | cons kv t ih =>
    obtain ⟨k1, v1⟩ := kv
    rw [List.map_cons]
    by_cases hk1 : ((k1 == k) = true)
    · have hke : k1 = k := by rwa [beq_iff_eq] at hk1
      have h2 : (k2 == k) = false := beq_eq_false_iff_ne.mpr h
      have h3 : (k2 == k1) = false := by rw [hke]; exact h2
      rw [if_pos hk1, List.lookup, List.lookup, h2, h3]
      exact ih
    · rw [if_neg hk1, List.lookup, List.lookup]
      cases hk2 : (k2 == k1) with
      | true => rfl
      | false => exact ih

/-- Helper: looking up the key just set returns the new value. -/
theorem lookup_setKey_self (l : List (String × String)) (k v : String) :
    (setKey l k v).lookup k = some v := by
  rw [setKey]
  by_cases ha : ((l.any fun kv => kv.1 == k) = true)
  · rw [if_pos ha]
    exact lookup_mapReplace_self l k v ha
  · rw [if_neg ha]
    rw [List.any_eq_true] at ha
    push_neg at ha
    have hnone : l.lookup k = none := by
      refine lookup_eq_none_of_all_ne ?_
      intro kv hkv heq
      exact ha kv hkv (by rw [heq]; exact beq_self_eq_true _)
    rw [lookup_append, hnone, List.lookup, beq_self_eq_true]

/-- Helper: setting one key leaves other lookups unchanged. -/
theorem lookup_setKey_ne (l : List (String × String)) (k v k2 : String)
    (h : k2 ≠ k) : (setKey l k v).lookup k2 = l.lookup k2 := by
  rw [setKey]
  by_cases ha : ((l.any fun kv => kv.1 == k) = true)
  · rw [if_pos ha]
    exact lookup_mapReplace_ne l k v k2 h
  · rw [if_neg ha, lookup_append]
    have h2 : (k2 == k) = false := beq_eq_false_iff_ne.mpr h
    cases hl : l.lookup k2 with
    | some w => rfl
    | none => rw [List.lookup, h2]; rfl

/-- Helper: a lookup in an updated dimension map is a change value or the
old value. -/
theorem applyDims_lookup : ∀ (ch : List (String × String))
    (old : List (String × String)) (k v : String),
    (applyDims old ch).lookup k = some v → (k, v) ∈ ch ∨ old.lookup k = some v := by
  intro ch
  induction ch with
  | nil => intro old k v h; exact Or.inr h
  | cons kv t ih =>
    intro old k v h
    obtain ⟨k1, v1⟩ := kv
    rw [applyDims] at h
    rcases ih (setKey old k1 v1) k v h with h1 | h2
    · exact Or.inl (List.mem_cons_of_mem _ h1)
    · by_cases hk : k = k1
      · subst hk
        rw [lookup_setKey_self] at h2
        injection h2 with hv
        exact Or.inl (by rw [hv]; exact List.mem_cons_self _ _)
      · rw [lookup_setKey_ne _ _ _ _ hk] at h2
        exact Or.inr h2

/-- Helper: keys not mentioned by the changes keep their lookup. -/
theorem applyDims_lookup_not_mem : ∀ (ch : List (String × String))
    (old : List (String × String)) (k : String),
    (∀ kv ∈ ch, kv.1 ≠ k) → (applyDims old ch).lookup k = old.lookup k := by
  intro ch
  induction ch with
  | nil => intro old k _; rfl
  | cons kv t ih =>
    intro old k h
    obtain ⟨k1, v1⟩ := kv
    rw [applyDims, ih (setKey old k1 v1) k
      (fun kv2 hkv2 => h kv2 (List.mem_cons_of_mem _ hkv2))]
    exact lookup_setKey_ne old k1 v1 k
      (fun he => h (k1, v1) (List.mem_cons_self _ _) (by rw [he]))

/-- Helper: a successful segment resolution returns a stored document. -/
theorem resolveSeg_mem {s : CoreStore} {par : Option String} {seg : String} {d : Doc}
    (h : resolveSeg s par seg = .ok d) : d ∈ s.docs := by
  rw [resolveSeg] at h
  cases hf : s.docs.filter
      (fun e => parentRef s.config e == par && segString s e == seg) with
  | nil => rw [hf] at h; cases h
  | cons x t =>
    cases t with
    | nil =>
      rw [hf] at h
      injection h with hx
      subst hx
      exact List.mem_of_mem_filter (hf ▸ List.mem_cons_self x [])
    | cons y t2 => rw [hf] at h; cases h

/-- Helper: a successful multi-segment resolution returns a stored
document. -/
theorem resolveSegs_mem {s : CoreStore} :
    ∀ {segs : List String} {par : Option String} {d : Doc},
      resolveSegs s par segs = .ok d → d ∈ s.docs := by
  intro segs
  induction segs with
  | nil => intro par d h; cases h
  | cons a t ih =>
    intro par d h
    cases t with
    | nil => exact resolveSeg_mem h
    | cons b t2 =>
      have h1 : resolveSegs s par (a :: b :: t2) =
          match resolveSeg s par a with
          | Except.error e => Except.error e
          | Except.ok d2 => resolveSegs s (some d2.uuid) (b :: t2) := rfl
      rw [h1] at h
      cases hra : resolveSeg s par a with
      | error e => rw [hra] at h; cases h
      | ok dd => rw [hra] at h; exact ih h

/-- Helper: a located target is a stored document. -/
theorem locate_mem {s : CoreStore} {loc : String} {d : Doc}
    (h : locate s loc = .ok d) : d ∈ s.docs := by
  rw [locate] at h
  cases hf : findByUuid s loc with
  | some e =>
    rw [hf] at h
    injection h with he
    subst he
    exact (findByUuid_mem hf).1
  | none =>
    rw [hf] at h
    exact resolveSegs_mem h

/-! ### Theorems: invariant preservation -/

/-- Helper: the parent reference in monadic form. -/
theorem parentRef_eq (c : Config) (d : Doc) :
    parentRef c d =
      (c.hierDim.bind fun hd => hd.ref_field.bind fun rf => d.dims.lookup rf) := by
  cases hh : c.hierDim with
  | none => simp [parentRef, hh]
  | some hd =>
    cases hrf : hd.ref_field with
    | none => simp [parentRef, hh, hrf]
    | some rf => simp [parentRef, hh, hrf]

/-- Helper: characterization of the ref-field test. -/
theorem isRefField_true_iff (c : Config) (k : String) :
    isRefField c k = true ↔ ∃ hd, c.hierDim = some hd ∧ hd.ref_field = some k := by
  cases hh : c.hierDim with
  | none => simp [isRefField, hh]
  | some hd => simp [isRefField, hh, beq_iff_eq]

/-- Helper: the UUID generator is injective. -/
theorem genUuid_inj {a b : Nat} (h : genUuid a = genUuid b) : a = b := by
  have h2 := congrArg String.length h
  simpa [genUuid, String.length] using h2

/-- Helper: stored UUIDs differ from the next generated UUID. -/
theorem fresh_ne_next {s : CoreStore} (hs : Inv s) {d : Doc} (hd : d ∈ s.docs) :
    d.uuid ≠ genUuid s.nextId := by
  obtain ⟨k, hk, he⟩ := hs.fresh d hd
  rw [he]
  intro h2
  exact absurd (genUuid_inj h2) (by omega)

/-- The empty store satisfies the invariant. -/
theorem inv_init (c : Config) : Inv (initStore c) where
  nodup := List.nodup_nil
  fresh := fun d hd => by cases hd
  parentsExist := fun d hd => by cases hd
  acyclic := ⟨fun _ => 0, fun d hd => by cases hd⟩

/-- The add operation preserves the invariant. -/
theorem inv_add {s : CoreStore} (hs : Inv s) {t : String}
    {dims : List (String × String)} {u : String} {s2 : CoreStore}
    (h : CoreStore.add s t dims = .ok (u, s2)) : Inv s2 := by
  rw [CoreStore.add] at h
  by_cases hv : validDims s dims
  swap
  · rw [if_neg hv] at h; cases h
  rw [if_pos hv] at h
  injection h with h2
  injection h2 with hu hs2
  subst hu
  subst hs2
  set nd : Doc := { uuid := genUuid s.nextId, title := t, dims := dims } with hnd
  have hcfg : ({ s with docs := s.docs ++ [nd], nextId := s.nextId + 1 } :
      CoreStore).config = s.config := rfl
  have hfreshne : ∀ d ∈ s.docs, d.uuid ≠ nd.uuid := fun d hd => fresh_ne_next hs hd
  have hparnd : ∀ p, parentRef s.config nd = some p → ∃ e ∈ s.docs, e.uuid = p := by
    intro p hp
    rw [parentRef_eq] at hp
    obtain ⟨hdim, hh, hp2⟩ := Option.bind_eq_some.mp hp
    obtain ⟨rf, hrf, hp3⟩ := Option.bind_eq_some.mp hp2
    have hmem : (rf, p) ∈ dims := lookup_mem hp3
    have hval := (List.all_eq_true.mp hv) (rf, p) hmem
    have hisrf : isRefField s.config rf = true :=
      (isRefField_true_iff s.config rf).mpr ⟨hdim, hh, hrf⟩
    rw [if_pos hisrf] at hval
    cases hfp : findByUuid s p with
    | none => rw [hfp] at hval; cases hval
    | some e => exact ⟨e, (findByUuid_mem hfp).1, (findByUuid_mem hfp).2⟩
  constructor
  · show ((s.docs ++ [nd]).map Doc.uuid).Nodup
    rw [List.map_append]
    rw [List.nodup_append]
    refine ⟨hs.nodup, by simp, ?_⟩
    intro x hx
    obtain ⟨e, he, rfl⟩ := List.mem_map.mp hx
    simp only [List.map_cons, List.map_nil, List.mem_singleton]
    exact hfreshne e he
  · intro d hd
    have hnx : ({ s with docs := s.docs ++ [nd], nextId := s.nextId + 1 } :
        CoreStore).nextId = s.nextId + 1 := rfl
    rw [hnx]
    rcases List.mem_append.mp hd with h1 | h2
    · obtain ⟨k, hk, he⟩ := hs.fresh d h1
      exact ⟨k, by omega, he⟩
    · rw [List.mem_singleton] at h2
      subst h2
      exact ⟨s.nextId, by omega, rfl⟩
  · intro d hd p hp
    rw [hcfg] at hp
    rcases List.mem_append.mp hd with h1 | h2
    · obtain ⟨e, he, heu⟩ := hs.parentsExist d h1 p hp
      exact ⟨e, List.mem_append_left _ he, heu⟩
    · rw [List.mem_singleton] at h2
      subst h2
      obtain ⟨e, he, heu⟩ := hparnd p hp
      exact ⟨e, List.mem_append_left _ he, heu⟩
  · obtain ⟨rank, hrank⟩ := hs.acyclic
    cases hpnd : parentRef s.config nd with
    | none =>
      refine ⟨rank, ?_⟩
      intro d hd p hp
      rw [hcfg] at hp
      rcases List.mem_append.mp hd with h1 | h2
      · exact hrank d h1 p hp
      · rw [List.mem_singleton] at h2
        subst h2
        rw [hpnd] at hp
        cases hp
    | some p0 =>
      obtain ⟨e0, he0, he0u⟩ := hparnd p0 hpnd
      refine ⟨fun x => if x = nd.uuid then rank p0 + 1 else rank x, ?_⟩
      intro d hd p hp
      rw [hcfg] at hp
      rcases List.mem_append.mp hd with h1 | h2
      · have hdu : d.uuid ≠ nd.uuid := hfreshne d h1
        have hpu : p ≠ nd.uuid := by
          obtain ⟨e, he, heu⟩ := hs.parentsExist d h1 p hp
          rw [← heu]
          exact hfreshne e he
        show (if p = nd.uuid then rank p0 + 1 else rank p) <
          (if d.uuid = nd.uuid then rank p0 + 1 else rank d.uuid)
        rw [if_neg hpu, if_neg hdu]
        exact hrank d h1 p hp
      · rw [List.mem_singleton] at h2
        subst h2
        rw [hpnd] at hp
        injection hp with hp2
        subst hp2
        have hpu : p0 ≠ nd.uuid := by
          rw [← he0u]
          exact hfreshne e0 he0
        show (if p0 = nd.uuid then rank p0 + 1 else rank p0) <
          (if nd.uuid = nd.uuid then rank p0 + 1 else rank nd.uuid)
        rw [if_neg hpu, if_pos rfl]
        omega

/-- Helper: filtering the documents preserves the invariant when the kept
set is closed under parents. -/
theorem inv_filter {s : CoreStore} (hs : Inv s) (keep : Doc → Bool)
    (hclosed : ∀ x ∈ s.docs, keep x = true → ∀ p, parentRef s.config x = some p →
      ∀ e ∈ s.docs, e.uuid = p → keep e = true) :
    Inv { s with docs := s.docs.filter keep } := by
  have hcfg : ({ s with docs := s.docs.filter keep } : CoreStore).config = s.config := rfl
  constructor
  · exact List.Nodup.sublist (List.Sublist.map Doc.uuid (List.filter_sublist _)) hs.nodup
  · intro d hd
    exact hs.fresh d (List.mem_of_mem_filter hd)
  · intro d hd p hp
    rw [hcfg] at hp
    obtain ⟨hdm, hdk⟩ := List.mem_filter.mp hd
    obtain ⟨e, hem, heu⟩ := hs.parentsExist d hdm p hp
    exact ⟨e, List.mem_filter.mpr ⟨hem, hclosed d hdm hdk p hp e hem heu⟩, heu⟩
  · obtain ⟨rank, hrank⟩ := hs.acyclic
    refine ⟨rank, ?_⟩
    intro d hd p hp
    rw [hcfg] at hp
    exact hrank d (List.mem_of_mem_filter hd) p hp

/-- Helper: subtree membership is reachability up to the root, under the
invariant. -/
theorem inSubtree_true_iff {s : CoreStore} (hs : Inv s) {r : String} {e : Doc}
    (he : e ∈ s.docs) :
    inSubtree s r e = true ↔ Relation.ReflTransGen (UpStep s) e.uuid r := by
  obtain ⟨l, hl, hnd, hmem⟩ := inv_chain_exists hs ⟨e, he, rfl⟩
  simp only [inSubtree, hl]
  rw [show (l.contains r = true ↔ r ∈ l) from List.elem_iff]
  constructor
  · intro hc
    exact chainX_sound hl r hc
  · intro hr
    exact chainX_complete hs.nodup hr hl

/-- The delete operation preserves the invariant. -/
theorem inv_delete {s : CoreStore} (hs : Inv s) {loc : String} {casc : Bool}
    {s2 : CoreStore} (h : CoreStore.delete s loc casc = .ok s2) : Inv s2 := by
  rw [CoreStore.delete] at h
  cases hl : locate s loc with
  | error e => rw [hl] at h; cases h
  | ok d =>
    rw [hl] at h
    have hdm := locate_mem hl
    cases casc with
    | true =>
      have h2 : Except.ok ({ s with
          docs := s.docs.filter (fun e => !(inSubtree s d.uuid e)) } : CoreStore) =
          Except.ok s2 := h
      injection h2 with h3
      subst h3
      refine inv_filter hs _ ?_
      intro x hx hkx p hp e hem heu
      rw [Bool.not_eq_true'] at hkx ⊢
      by_contra hc
      rw [Bool.not_eq_false] at hc
      have hre : Relation.ReflTransGen (UpStep s) e.uuid d.uuid :=
        (inSubtree_true_iff hs hem).mp hc
      have hstep : UpStep s x.uuid p := UpStep.mk hx hp
      rw [← heu] at hstep
      have hrx : Relation.ReflTransGen (UpStep s) x.uuid d.uuid :=
        Relation.ReflTransGen.head hstep hre
      rw [(inSubtree_true_iff hs hx).mpr hrx] at hkx
      cases hkx
    | false =>
      have h2 : (if (childrenOf s d.uuid).isEmpty then
          Except.ok ({ s with
            docs := s.docs.filter (fun e => !(e.uuid == d.uuid)) } : CoreStore)
          else Except.error Err.conflict) = Except.ok s2 := h
      by_cases hch : ((childrenOf s d.uuid).isEmpty = true)
      swap
      · rw [if_neg hch] at h2; cases h2
      rw [if_pos hch] at h2
      injection h2 with h3
      subst h3
      refine inv_filter hs _ ?_
      intro x hx hkx p hp e hem heu
      rw [Bool.not_eq_true'] at hkx ⊢
      rw [beq_eq_false_iff_ne]
      intro heq
      have hed : e = d := uuid_inj hs.nodup hem hdm heq
      have hxc : x ∈ childrenOf s d.uuid := by
        rw [childrenOf, List.mem_filter]
        refine ⟨hx, ?_⟩
        rw [beq_iff_eq, hp, ← hed, heu]
      rw [List.isEmpty_iff] at hch
      rw [hch] at hxc
      cases hxc

/-- Helper: a validated hierarchical change has a successful ancestor walk
avoiding the target. -/
theorem validChange_ref {s : CoreStore} {t : Doc} {k v : String}
    (hisrf : isRefField s.config k = true)
    (hval : validChange s t k v = true) :
    ∃ lp, chainX s s.docs.length (some v) = some lp ∧ t.uuid ∉ lp := by
  rw [validChange, if_pos hisrf] at hval
  cases hcx : chainX s s.docs.length (some v) with
  | none => rw [hcx] at hval; cases hval
  | some lp =>
    rw [hcx] at hval
    refine ⟨lp, rfl, ?_⟩
    intro hmem
    have hval2 : (!lp.contains t.uuid) = true := hval
    rw [Bool.not_eq_true'] at hval2
    rw [← List.elem_iff] at hmem
    have hval3 : List.elem t.uuid lp = false := hval2
    rw [hval3] at hmem
    cases hmem

/-- The update operation preserves the invariant. -/
theorem inv_update {s : CoreStore} (hs : Inv s) {loc : String} {r : UpdateReq}
    {s2 : CoreStore} (h : CoreStore.update s loc r = .ok s2) : Inv s2 := by
  rw [CoreStore.update] at h
  cases hl : locate s loc with
  | error e => rw [hl] at h; cases h
  | ok t =>
    rw [hl] at h
    have ht := locate_mem hl
    have h2 : (if (r.dims.all fun kv => validChange s t kv.1 kv.2) then
        Except.ok ({ s with docs := s.docs.map (fun d =>
          if d.uuid = t.uuid then applyUpdate t r else d) } : CoreStore)
        else Except.error Err.validation) = Except.ok s2 := h
    by_cases hvd : ((r.dims.all fun kv => validChange s t kv.1 kv.2) = true)
    swap
    · rw [if_neg hvd] at h2; cases h2
    rw [if_pos hvd] at h2
    injection h2 with h3
    subst h3
    set upd : Doc → Doc := fun d => if d.uuid = t.uuid then applyUpdate t r else d
      with hupd
    set s2 : CoreStore := { s with docs := s.docs.map upd } with hs2
    have hcfg : s2.config = s.config := rfl
    have huuid : ∀ d, (upd d).uuid = d.uuid := by
      intro d
      rw [hupd]
      by_cases hd : d.uuid = t.uuid
      · show (if d.uuid = t.uuid then applyUpdate t r else d).uuid = d.uuid
        rw [if_pos hd]
        show t.uuid = d.uuid
        rw [hd]
      · show (if d.uuid = t.uuid then applyUpdate t r else d).uuid = d.uuid
        rw [if_neg hd]
    have hmapu : s2.docs.map Doc.uuid = s.docs.map Doc.uuid := by
      show (s.docs.map upd).map Doc.uuid = s.docs.map Doc.uuid
      rw [List.map_map]
      exact List.map_congr_left (fun d _ => huuid d)
    have hnodup2 : (s2.docs.map Doc.uuid).Nodup := by rw [hmapu]; exact hs.nodup
    have hupd_ne : ∀ e ∈ s.docs, e ≠ t → upd e = e := by
      intro e he het
      rw [hupd]
      show (if e.uuid = t.uuid then applyUpdate t r else e) = e
      rw [if_neg (fun heq => het (uuid_inj hs.nodup he ht heq))]
    have hupd_t : upd t = applyUpdate t r := by
      rw [hupd]
      show (if t.uuid = t.uuid then applyUpdate t r else t) = applyUpdate t r
      rw [if_pos rfl]
    have ht2u : (applyUpdate t r).uuid = t.uuid := rfl
    have hsafe : ∀ p, parentRef s.config (applyUpdate t r) = some p →
        (∃ e ∈ s.docs, e.uuid = p) ∧ ¬ Relation.ReflTransGen (UpStep s) p t.uuid := by
      intro p hp
      rw [parentRef_eq] at hp
      obtain ⟨hdim, hh, hp2⟩ := Option.bind_eq_some.mp hp
      obtain ⟨rf, hrf, hp3⟩ := Option.bind_eq_some.mp hp2
      have hp3b : (applyDims t.dims r.dims).lookup rf = some p := hp3
      rcases applyDims_lookup r.dims t.dims rf p hp3b with hc | hold
      · have hval := (List.all_eq_true.mp hvd) (rf, p) hc
        have hisrf : isRefField s.config rf = true :=
          (isRefField_true_iff s.config rf).mpr ⟨hdim, hh, hrf⟩
        obtain ⟨lp, hcx, hnot⟩ := validChange_ref hisrf hval
        obtain ⟨n2, dd, l2, _, hfp, _, _⟩ := chainX_some_elim hcx
        refine ⟨⟨dd, (findByUuid_mem hfp).1, (findByUuid_mem hfp).2⟩, ?_⟩
        intro hrt
        exact hnot (chainX_complete hs.nodup hrt hcx)
      · have hpt : parentRef s.config t = some p := by
          rw [parentRef_eq]
          exact Option.bind_eq_some.mpr ⟨hdim, hh,
            Option.bind_eq_some.mpr ⟨rf, hrf, hold⟩⟩
        refine ⟨hs.parentsExist t ht p hpt, ?_⟩
        intro hrt
        exact no_self_ancestor hs
          (Relation.TransGen.head' (UpStep.mk ht hpt) hrt)
    constructor
    · exact hnodup2
    · intro d hd
      show ∃ k < s.nextId, d.uuid = genUuid k
      obtain ⟨e, he, rfl⟩ := List.mem_map.mp hd
      obtain ⟨k, hk, heq⟩ := hs.fresh e he
      exact ⟨k, hk, by rw [huuid e, heq]⟩
    · intro d hd q hq
      rw [hcfg] at hq
      obtain ⟨e, he, rfl⟩ := List.mem_map.mp hd
      by_cases het : e = t
      · rw [het, hupd_t] at hq
        obtain ⟨⟨e3, he3, he3u⟩, _⟩ := hsafe q hq
        exact ⟨upd e3, List.mem_map_of_mem upd he3, by rw [huuid e3]; exact he3u⟩
      · rw [hupd_ne e he het] at hq
        obtain ⟨e3, he3, he3u⟩ := hs.parentsExist e he q hq
        exact ⟨upd e3, List.mem_map_of_mem upd he3, by rw [huuid e3]; exact he3u⟩
    · obtain ⟨rank, hrank⟩ := hs.acyclic
      have hold_edge : ∀ {c q : String}, UpStep s2 c q → c ≠ t.uuid → UpStep s c q := by
        intro c q hstep hct
        obtain ⟨dd, hddm, hddu, hddp⟩ := upStep_elim hstep
        obtain ⟨e, he, rfl⟩ := List.mem_map.mp hddm
        by_cases het : e = t
        · rw [het, hupd_t, ht2u] at hddu
          exact absurd hddu.symm hct
        · rw [hupd_ne e he het] at hddu hddp
          rw [hcfg] at hddp
          have h5 : UpStep s e.uuid q := UpStep.mk he hddp
          rwa [hddu] at h5
      have hnew_to_old : ∀ a, Relation.TransGen (UpStep s2) a t.uuid →
          Relation.ReflTransGen (UpStep s) a t.uuid := by
        intro a hta
        induction hta using Relation.TransGen.head_induction_on with
        | base hedge =>
          rename_i a2
          by_cases ha2 : a2 = t.uuid
          · rw [ha2]
          · exact Relation.ReflTransGen.single (hold_edge hedge ha2)
        | ih hedge _ ihh =>
          rename_i a2 c2 _
          by_cases ha2 : a2 = t.uuid
          · rw [ha2]
          · exact Relation.ReflTransGen.head (hold_edge hedge ha2) ihh
      cases hp2c : parentRef s.config (applyUpdate t r) with
      | none =>
        refine ⟨rank, ?_⟩
        intro d hd q hq
        rw [hcfg] at hq
        obtain ⟨e, he, rfl⟩ := List.mem_map.mp hd
        by_cases het : e = t
        · rw [het, hupd_t, hp2c] at hq
          cases hq
        · rw [hupd_ne e he het] at hq ⊢
          exact hrank e he q hq
      | some p2 =>
        obtain ⟨⟨ep2, hep2, hep2u⟩, hnRTG⟩ := hsafe p2 hp2c
        classical
        set D : String → Prop :=
          fun x => x = t.uuid ∨ Relation.TransGen (UpStep s2) x t.uuid with hD
        have hDp2 : ¬ D p2 := by
          intro hd
          rcases hd with h5 | h5
          · exact hnRTG (h5 ▸ Relation.ReflTransGen.refl)
          · exact hnRTG (hnew_to_old p2 h5)
        have hD_back : ∀ {c q : String}, UpStep s2 c q → D q → D c := by
          intro c q hedge hdq
          rcases hdq with h5 | h5
          · exact Or.inr (Relation.TransGen.single (h5 ▸ hedge))
          · exact Or.inr (Relation.TransGen.head hedge h5)
        have hD_fwd : ∀ {c q : String}, UpStep s2 c q → D c → c ≠ t.uuid → D q := by
          intro c q hedge hdc hct
          rcases hdc with h5 | h5
          · exact absurd h5 hct
          · obtain ⟨b, hb, hbc⟩ := Relation.TransGen.head'_iff.mp h5
            obtain rfl : b = q := upStep_unique hnodup2 hb hedge
            rcases Relation.reflTransGen_iff_eq_or_transGen.mp hbc with h6 | h6
            · exact Or.inl h6.symm
            · exact Or.inr h6
        refine ⟨fun x => if D x then rank x + (rank p2 + 1) else rank x, ?_⟩
        intro d hd q hq
        rw [hcfg] at hq
        obtain ⟨e, he, rfl⟩ := List.mem_map.mp hd
        by_cases het : e = t
        · rw [het] at hq ⊢
          rw [hupd_t] at hq ⊢
          rw [hp2c] at hq
          injection hq with hq2
          rw [← hq2]
          show (if D p2 then rank p2 + (rank p2 + 1) else rank p2) <
            (if D (applyUpdate t r).uuid then rank (applyUpdate t r).uuid + (rank p2 + 1)
              else rank (applyUpdate t r).uuid)
          rw [ht2u, if_neg hDp2, if_pos (Or.inl rfl)]
          omega
        · rw [hupd_ne e he het] at hq ⊢
          have he2 : e ∈ s2.docs := by
            have h5 := List.mem_map_of_mem upd he
            rwa [hupd_ne e he het] at h5
          have hs2edge : UpStep s2 e.uuid q := UpStep.mk he2 (by rw [hcfg]; exact hq)
          have heut : e.uuid ≠ t.uuid := fun heq => het (uuid_inj hs.nodup he ht heq)
          have hr0 : rank q < rank e.uuid := hrank e he q hq
          by_cases hDe : D e.uuid
          · have hDq : D q := hD_fwd hs2edge hDe heut
            show (if D q then rank q + (rank p2 + 1) else rank q) <
              (if D e.uuid then rank e.uuid + (rank p2 + 1) else rank e.uuid)
            rw [if_pos hDq, if_pos hDe]
            omega
          · have hDq : ¬ D q := fun hdq => hDe (hD_back hs2edge hdq)
            show (if D q then rank q + (rank p2 + 1) else rank q) <
              (if D e.uuid then rank e.uuid + (rank p2 + 1) else rank e.uuid)
            rw [if_neg hDq, if_neg hDe]
            exact hr0

/-- Helper: add does not change the configuration. -/
theorem add_config {s : CoreStore} {t : String} {dims : List (String × String)}
    {u : String} {s2 : CoreStore} (h : CoreStore.add s t dims = .ok (u, s2)) :
    s2.config = s.config := by
  rw [CoreStore.add] at h
  by_cases hv : validDims s dims
  · rw [if_pos hv] at h
    injection h with h2
    injection h2 with hu hs2
    rw [← hs2]
  · rw [if_neg hv] at h; cases h

/-- Helper: update does not change the configuration. -/
theorem update_config {s : CoreStore} {loc : String} {r : UpdateReq} {s2 : CoreStore}
    (h : CoreStore.update s loc r = .ok s2) : s2.config = s.config := by
  rw [CoreStore.update] at h
  cases hl : locate s loc with
  | error e => rw [hl] at h; cases h
  | ok t =>
    rw [hl] at h
    have h2 : (if (r.dims.all fun kv => validChange s t kv.1 kv.2) then
        Except.ok ({ s with docs := s.docs.map (fun d =>
          if d.uuid = t.uuid then applyUpdate t r else d) } : CoreStore)
        else Except.error Err.validation) = Except.ok s2 := h
    by_cases hvd : ((r.dims.all fun kv => validChange s t kv.1 kv.2) = true)
    · rw [if_pos hvd] at h2
      injection h2 with h3
      rw [← h3]
    · rw [if_neg hvd] at h2; cases h2

/-- Helper: delete does not change the configuration. -/
theorem delete_config {s : CoreStore} {loc : String} {casc : Bool} {s2 : CoreStore}
    (h : CoreStore.delete s loc casc = .ok s2) : s2.config = s.config := by
  rw [CoreStore.delete] at h
  cases hl : locate s loc with
  | error e => rw [hl] at h; cases h
  | ok d =>
    rw [hl] at h
    cases casc with
    | true =>
      have h2 : Except.ok ({ s with
          docs := s.docs.filter (fun e => !(inSubtree s d.uuid e)) } : CoreStore) =
          Except.ok s2 := h
      injection h2 with h3
      rw [← h3]
    | false =>
      have h2 : (if (childrenOf s d.uuid).isEmpty then
          Except.ok ({ s with
            docs := s.docs.filter (fun e => !(e.uuid == d.uuid)) } : CoreStore)
          else Except.error Err.conflict) = Except.ok s2 := h
      by_cases hch : ((childrenOf s d.uuid).isEmpty = true)
      · rw [if_pos hch] at h2
        injection h2 with h3
        rw [← h3]
      · rw [if_neg hch] at h2; cases h2

/-- Every reachable store keeps the configuration it was opened with. -/
theorem reachable_config {c : Config} {s : CoreStore} (h : Reachable c s) :
    s.config = c := by
  induction h with
  | init => rfl
  | add _ hop ih => rw [add_config hop]; exact ih
  | update _ hop ih => rw [update_config hop]; exact ih
  | delete _ hop ih => rw [delete_config hop]; exact ih

/-- Every reachable store satisfies the invariant. -/
theorem reachable_inv {c : Config} {s : CoreStore} (h : Reachable c s) : Inv s := by
  induction h with
  | init => exact inv_init c
  | add _ hop ih => exact inv_add ih hop
  | update _ hop ih => exact inv_update ih hop
  | delete _ hop ih => exact inv_delete ih hop

/-! ### Theorems: renumbering after delete -/

/-- Helper: position of a surviving element after one element is filtered
out of a duplicate-free list. -/
theorem indexOf_filter_ne {α : Type} [DecidableEq α] :
    ∀ (L : List α) (d e : α), L.Nodup → e ≠ d → e ∈ L →
      (L.filter (fun x => x != d)).indexOf e =
        if L.indexOf d < L.indexOf e then L.indexOf e - 1 else L.indexOf e := by
  intro L
  induction L with
  | nil => intro d e _ _ he; cases he
  | cons a t ih =>
    intro d e hn hne he
    rw [List.nodup_cons] at hn
    rw [List.filter_cons]
    by_cases had : a = d
    · subst had
      have hft : t.filter (fun x => x != a) = t :=
        List.filter_eq_self.mpr (fun x hx => bne_iff_ne.mpr (fun hxa => hn.1 (hxa ▸ hx)))
      have hea : e ≠ a := hne
      have het : e ∈ t := by
        cases he with
        | head => exact absurd rfl hea
        | tail _ h2 => exact h2
      rw [if_neg (by simp), hft, List.indexOf_cons_self,
        List.indexOf_cons_ne t (fun h2 => hea h2.symm)]
      rw [if_pos (by omega)]
      omega
    · rw [if_pos (bne_iff_ne.mpr had)]
      by_cases hae : a = e
      · subst hae
        rw [List.indexOf_cons_self, List.indexOf_cons_self,
          List.indexOf_cons_ne t had]
        rw [if_neg (by omega)]
      · have het : e ∈ t := by
          cases he with
          | head => exact absurd rfl (fun h2 => hae h2.symm)
          | tail _ h2 => exact h2
        rw [List.indexOf_cons_ne _ hae,
          List.indexOf_cons_ne t had,
          List.indexOf_cons_ne t hae]
        rw [ih d e hn.2 hne het]
        by_cases hlt : t.indexOf d < t.indexOf e
        · rw [if_pos hlt, if_pos (by omega)]
          omega
        · rw [if_neg hlt, if_neg (by omega)]

/-- Helper: scopes of a filtered store are the filtered scopes. -/
theorem scope_filter_eq (s : CoreStore) (keep : Doc → Bool) (par : Option String)
    (pre : String) :
    scopeDocs { s with docs := s.docs.filter keep } par pre =
      (scopeDocs s par pre).filter keep := by
  show (s.docs.filter keep).filter
      (fun d => parentRef s.config d == par && docPre s.config d == pre) =
    (s.docs.filter
      (fun d => parentRef s.config d == par && docPre s.config d == pre)).filter keep
  rw [List.filter_filter, List.filter_filter]
  exact List.filter_congr (fun x _ => Bool.and_comm _ _)

/-- Helper: a document is never a strict ancestor of one of its own
siblings. -/
theorem sibling_not_in_subtree {s : CoreStore} (hs : Inv s) {d x : Doc}
    (hd : d ∈ s.docs) (hx : x ∈ s.docs) (hne : x ≠ d)
    (hpar : parentRef s.config x = parentRef s.config d) :
    ¬ Relation.ReflTransGen (UpStep s) x.uuid d.uuid := by
  intro hr
  rcases Relation.reflTransGen_iff_eq_or_transGen.mp hr with heq | htr
  · exact hne (uuid_inj hs.nodup hx hd heq.symm)
  · obtain ⟨b, hb, hbc⟩ := Relation.TransGen.head'_iff.mp htr
    obtain ⟨dd, hddm, hddu, hddp⟩ := upStep_elim hb
    obtain rfl : dd = x := uuid_inj hs.nodup hddm hx hddu
    rw [hpar] at hddp
    exact no_self_ancestor hs (Relation.TransGen.head' (UpStep.mk hd hddp) hbc)

/-- Helper: deleting one document from a scope renumbers the survivors by
position. -/
theorem renumber_core {s : CoreStore} (hs : Inv s) {d : Doc} (hd : d ∈ s.docs)
    (keep : Doc → Bool)
    (hkp : ∀ x ∈ scopeDocs s (parentRef s.config d) (docPre s.config d),
      keep x = (x != d)) :
    ∀ e ∈ scopeDocs s (parentRef s.config d) (docPre s.config d), e ≠ d →
      e ∈ (s.docs.filter keep) ∧
      seqNum { s with docs := s.docs.filter keep } e =
        (if seqNum s d < seqNum s e then seqNum s e - 1 else seqNum s e) := by
  intro e he hne
  obtain ⟨hem, hepar, hepre⟩ := mem_scopeDocs.mp he
  have hkeepe : keep e = true := by rw [hkp e he]; exact bne_iff_ne.mpr hne
  have hmem2 : e ∈ s.docs.filter keep := List.mem_filter.mpr ⟨hem, hkeepe⟩
  refine ⟨hmem2, ?_⟩
  set s2 : CoreStore := { s with docs := s.docs.filter keep } with hs2
  have hescope2 : e ∈ scopeDocs s2 (parentRef s.config d) (docPre s.config d) := by
    rw [hs2, scope_filter_eq]
    exact List.mem_filter.mpr ⟨he, hkeepe⟩
  have hseq2 : seqNum s2 e =
      (scopeDocs s2 (parentRef s.config d) (docPre s.config d)).indexOf e + 1 := by
    have h4 := seqNum_eq_indexOf (s := s2) hescope2
    exact h4
  have hLnodup : (scopeDocs s (parentRef s.config d) (docPre s.config d)).Nodup :=
    List.Nodup.filter _ (hs.nodup.of_map)
  have hscope2 : scopeDocs s2 (parentRef s.config d) (docPre s.config d) =
      (scopeDocs s (parentRef s.config d) (docPre s.config d)).filter
        (fun x => x != d) := by
    rw [hs2, scope_filter_eq]
    exact List.filter_congr hkp
  have hdscope : d ∈ scopeDocs s (parentRef s.config d) (docPre s.config d) :=
    mem_scopeDocs.mpr ⟨hd, rfl, rfl⟩
  have hseqd := seqNum_eq_indexOf hdscope
  have hseqe := seqNum_eq_indexOf he
  rw [hseq2, hscope2,
    indexOf_filter_ne _ d e hLnodup hne he, hseqd, hseqe]
  by_cases hlt : (scopeDocs s (parentRef s.config d) (docPre s.config d)).indexOf d <
      (scopeDocs s (parentRef s.config d) (docPre s.config d)).indexOf e
  · rw [if_pos hlt, if_pos (by omega)]
    omega
  · rw [if_neg hlt, if_neg (by omega)]

/-! ### Theorems: the core claims -/

/-- Helper: a run of successful adds preserves reachability. -/
theorem reachable_addAll {c : Config} :
    ∀ (items : List (String × List (String × String))) {s s2 : CoreStore},
      Reachable c s → addAll s items = .ok s2 → Reachable c s2 := by
  intro items
  induction items with
  | nil =>
    intro s s2 hr h
    rw [addAll] at h
    injection h with h2
    rw [← h2]
    exact hr
  | cons it rest ih =>
    intro s s2 hr h
    obtain ⟨t, dims⟩ := it
    rw [addAll] at h
    cases hadd : CoreStore.add s t dims with
    | error e => rw [hadd] at h; cases h
    | ok pair =>
      rw [hadd] at h
      obtain ⟨u, s3⟩ := pair
      exact ih (Reachable.add hr hadd) h

/-- Helper: the three-document hierarchical example store is reachable. -/
theorem sT_reachable : Reachable cfgT sT :=
  reachable_addAll itemsT Reachable.init (by rfl)

/-- Helper: the three-root example store is reachable. -/
theorem sD_reachable : Reachable cfgT sD :=
  reachable_addAll itemsD Reachable.init (by rfl)

/-- Helper: the digit-token example store is reachable. -/
theorem cex_reachable : Reachable cexConfig cexStore :=
  reachable_addAll cexItems Reachable.init (by rfl)

/-- Helper: positions of a duplicate-free list enumerate it. -/
theorem map_indexOf_range {α : Type} [DecidableEq α] (l : List α) (hn : l.Nodup) :
    l.map (fun e => l.indexOf e + 1) = List.range' 1 l.length := by
  apply List.ext_getElem
  · simp
  · intro i h1 h2
    rw [List.getElem_map, List.getElem_range']
    rw [List.indexOf_getElem hn]
    omega

/-- C1 as amended: for configurations whose prefix tokens contain neither a
decimal digit nor the dot separator (true of every configuration in the
repository), resolving the rendered user-facing ID of any stored document
returns exactly that document's UUID, in every store state reachable by add,
update and delete. -/
theorem c1_resolve_render_roundtrip (c : Config) (s : CoreStore) (d : Doc)
    (hg : GoodConfig c) (hr : Reachable c s) (hd : d ∈ s.docs) :
    resolve_uuid s (render s d) = .ok d.uuid := by
  have hs := reachable_inv hr
  have hc := reachable_config hr
  refine roundtrip_of_inv hs ?_ hd
  rw [hc]
  exact hg

/-- C1 witness: round trip on a concrete reachable store with a
hierarchical child document. -/
theorem c1_witness : resolve_uuid sT (render sT docC) = .ok docC.uuid :=
  c1_resolve_render_roundtrip cfgT sT docC (by unfold GoodConfig; decide) sT_reachable
    (by decide)

/-- C1 counterexample: with a configuration whose prefix tokens are the
digit strings 1 and 11, a reachable store holds a document whose rendered
ID 111 resolves to AmbiguousError instead of its UUID: the eleventh
x document and the first y document render identically. -/
theorem c1_counterexample :
    Reachable cexConfig cexStore ∧ cexDoc ∈ cexStore.docs ∧
    resolve_uuid cexStore (render cexStore cexDoc) = .error .ambiguous ∧
    resolve_uuid cexStore (render cexStore cexDoc) ≠ .ok cexDoc.uuid := by
  refine ⟨cex_reachable, by decide, rfl, ?_⟩
  intro h
  rw [show resolve_uuid cexStore (render cexStore cexDoc) =
    .error .ambiguous from rfl] at h
  cases h

/-- C2: in every reachable store state, the sequence numbers assigned
within any sibling scope are exactly 1..n in creation order, where n is the
scope's size - no gaps, no duplicates. -/
theorem c2_scope_seq_numbers (c : Config) (s : CoreStore) (par : Option String)
    (pre : String) (hr : Reachable c s) :
    (scopeDocs s par pre).map (seqNum s) =
      List.range' 1 (scopeDocs s par pre).length := by
  have hs := reachable_inv hr
  have hnd : (scopeDocs s par pre).Nodup := List.Nodup.filter _ (hs.nodup.of_map _)
  have h1 : (scopeDocs s par pre).map (seqNum s) =
      (scopeDocs s par pre).map (fun e => (scopeDocs s par pre).indexOf e + 1) :=
    List.map_congr_left (fun e he => seqNum_eq_indexOf he)
  rw [h1]
  exact map_indexOf_range _ hnd

/-- C2 witness: the root scope of the three-root store is numbered 1..3. -/
theorem c2_witness :
    (scopeDocs sD none "").map (seqNum sD) =
      List.range' 1 (scopeDocs sD none "").length :=
  c2_scope_seq_numbers cfgT sD none "" sD_reachable

/-- C3: in every reachable store state, deleting a document renumbers its
scope gaplessly on the next read: every surviving sibling with a larger
sequence number moves down by exactly one, the others keep their numbers. -/
theorem c3_delete_renumbering (c : Config) (s s2 : CoreStore) (d : Doc)
    (casc : Bool) (hr : Reachable c s) (hd : d ∈ s.docs)
    (hdel : CoreStore.delete s d.uuid casc = .ok s2) :
    ∀ e ∈ scopeDocs s (parentRef s.config d) (docPre s.config d), e ≠ d →
      e ∈ s2.docs ∧
      seqNum s2 e =
        (if seqNum s d < seqNum s e then seqNum s e - 1 else seqNum s e) := by
  have hs := reachable_inv hr
  have hloc : locate s d.uuid = .ok d := by
    simp only [locate, findByUuid_eq_some hs.nodup hd]
  rw [CoreStore.delete, hloc] at hdel
  cases casc with
  | true =>
    have h2 : Except.ok ({ s with
        docs := s.docs.filter (fun e => !(inSubtree s d.uuid e)) } : CoreStore) =
        Except.ok s2 := hdel
    injection h2 with h3
    subst h3
    intro e he hne
    refine renumber_core hs hd _ ?_ e he hne
    intro x hx
    obtain ⟨hxm, hxp, hxq⟩ := mem_scopeDocs.mp hx
    by_cases hxd : x = d
    · subst hxd
      rw [(inSubtree_true_iff hs hxm).mpr Relation.ReflTransGen.refl]
      simp
    · have hfalse : inSubtree s d.uuid x = false := by
        rw [← Bool.not_eq_true]
        intro htrue
        exact sibling_not_in_subtree hs hd hxm hxd hxp
          ((inSubtree_true_iff hs hxm).mp htrue)
      rw [hfalse, Bool.not_false, Eq.comm, bne_iff_ne]
      exact hxd
  | false =>
    have h2 : (if (childrenOf s d.uuid).isEmpty then
        Except.ok ({ s with
          docs := s.docs.filter (fun e => !(e.uuid == d.uuid)) } : CoreStore)
        else Except.error Err.conflict) = Except.ok s2 := hdel
    by_cases hch : ((childrenOf s d.uuid).isEmpty = true)
    swap
    · rw [if_neg hch] at h2; cases h2
    rw [if_pos hch] at h2
    injection h2 with h3
    subst h3
    intro e he hne
    refine renumber_core hs hd _ ?_ e he hne
    intro x hx
    obtain ⟨hxm, hxp, hxq⟩ := mem_scopeDocs.mp hx
    by_cases hxd : x = d
    · subst hxd
      simp
    · have hne2 : x.uuid ≠ d.uuid := fun heq => hxd (uuid_inj hs.nodup hxm hd heq)
      rw [beq_eq_false_iff_ne.mpr hne2, Bool.not_false, Eq.comm, bne_iff_ne]
      exact hxd

/-- C3 witness: deleting the second of three roots moves the third from
sequence 3 to sequence 2 while keeping it stored. -/
theorem c3_witness :
    docC2 ∈ sD2.docs ∧
    seqNum sD2 docC2 =
      (if seqNum sD docB2 < seqNum sD docC2 then seqNum sD docC2 - 1
        else seqNum sD docC2) :=
  c3_delete_renumbering cfgT sD sD2 docB2 false sD_reachable (by decide)
    (by rfl) docC2 (by decide) (by decide)

/-- C5: in every reachable store state, deleting a document that has
children fails with ConflictError when cascade is off (the store value is
untouched, the operation returns no new state), while with cascade on it
succeeds and removes exactly the document and its transitive children. -/
theorem c5_delete_conflict_and_cascade (c : Config) (s : CoreStore) (d : Doc)
    (hr : Reachable c s) (hd : d ∈ s.docs)
    (hch : childrenOf s d.uuid ≠ []) :
    CoreStore.delete s d.uuid false = .error .conflict ∧
    ∃ s2, CoreStore.delete s d.uuid true = .ok s2 ∧
      ∀ e ∈ s.docs,
        (e ∈ s2.docs ↔ ¬ Relation.ReflTransGen (UpStep s) e.uuid d.uuid) := by
  have hs := reachable_inv hr
  have hloc : locate s d.uuid = .ok d := by
    simp only [locate, findByUuid_eq_some hs.nodup hd]
  constructor
  · rw [CoreStore.delete, hloc]
    show (if (childrenOf s d.uuid).isEmpty then _ else Except.error Err.conflict) = _
    rw [if_neg (by rwa [Ne, ← List.isEmpty_iff] at hch)]
  · refine ⟨{ s with docs := s.docs.filter (fun e => !(inSubtree s d.uuid e)) },
      ?_, ?_⟩
    · rw [CoreStore.delete, hloc]
      rfl
    · intro e he
      constructor
      · intro h2
        obtain ⟨_, hk⟩ := List.mem_filter.mp h2
        rw [Bool.not_eq_true'] at hk
        intro hr2
        rw [(inSubtree_true_iff hs he).mpr hr2] at hk
        cases hk
      · intro h2
        refine List.mem_filter.mpr ⟨he, ?_⟩
        rw [Bool.not_eq_true']
        rw [← Bool.not_eq_true (inSubtree s d.uuid e), Bool.not_eq_true]
        cases hsub : inSubtree s d.uuid e with
        | false => rfl
        | true => exact absurd ((inSubtree_true_iff hs he).mp hsub) h2

/-- C5 witness: the parent in the concrete hierarchical store cannot be
deleted without cascade, and cascading removes exactly its subtree. -/
theorem c5_witness :
    CoreStore.delete sT docA.uuid false = .error .conflict ∧
    ∃ s2, CoreStore.delete sT docA.uuid true = .ok s2 ∧
      ∀ e ∈ sT.docs,
        (e ∈ s2.docs ↔ ¬ Relation.ReflTransGen (UpStep sT) e.uuid docA.uuid) :=
  c5_delete_conflict_and_cascade cfgT sT docA sT_reachable (by decide) (by decide)

/-- C4: an enumerated dimension whose effective value (explicitly set or
defaulted) equals its default value contributes no prefix token, even when
that value appears in the prefixes table: its token is empty, and the
document's prefix string does not change when the dimension's prefix table
is erased. -/
theorem c4_default_value_no_token (c : Config) (d : Doc) (dim : DimensionConfig)
    (v : String) (hn : (c.dimensions.map DimensionConfig.name).Nodup)
    (hmem : dim ∈ c.dimensions) (hv : effValue d dim = some v)
    (hdef : dim.default_value = some v) :
    dimToken d dim = "" ∧ docPre c d = docPre (erasePre c dim.name) d := by
  have htok : ∀ dd : DimensionConfig, effValue d dd = some v →
      dd.default_value = some v → dimToken d dd = "" := by
    intro dd h1 h2
    simp only [dimToken, h1, if_pos h2]
  refine ⟨htok dim hv hdef, ?_⟩
  rw [docPre, docPre]
  have henum : (erasePre c dim.name).enumDims =
      c.enumDims.map (fun dd =>
        if dd.name = dim.name then { dd with prefixes := [] } else dd) := by
    rw [Config.enumDims, Config.enumDims]
    show ((c.dimensions.map (fun dd =>
        if dd.name = dim.name then { dd with prefixes := [] } else dd)).filter
        (fun dd => dd.type == DimensionType.enumerated)) = _
    rw [List.filter_map]
    congr 1
    apply List.filter_congr
    intro x _
    by_cases hx : x.name = dim.name
    · rw [Function.comp_apply, if_pos hx]
    · rw [Function.comp_apply, if_neg hx]
  rw [henum, List.map_map]
  congr 1
  apply List.map_congr_left
  intro dd hdd
  rw [Function.comp_apply]
  by_cases hx : dd.name = dim.name
  · rw [if_pos hx]
    have hddm : dd ∈ c.dimensions := List.mem_of_mem_filter hdd
    obtain rfl : dd = dim := List.inj_on_of_nodup_map hn hddm hmem hx
    have heff : effValue d ({ dd with prefixes := [] } : DimensionConfig) =
        effValue d dd := rfl
    rw [htok dd hv hdef, htok ({ dd with prefixes := [] } : DimensionConfig)
      (heff.trans hv) hdef]
  · rw [if_neg hx]

/-- C4 witness: the pending document of the concrete store gets no token
from the status dimension, whose default it carries, and its prefix ignores
the status prefix table. -/
theorem c4_witness :
    dimToken docA statusDim = "" ∧
    docPre cfgT docA = docPre (erasePre cfgT statusDim.name) docA :=
  c4_default_value_no_token cfgT docA statusDim "pending" (by decide) (by decide)
    rfl rfl

end NanoVerify
